import Mathlib

/-
  Verification development for the Agata dependency-injection broker
  (src/src/broker.js): dependency-graph resolution (sortSingletons /
  sortActions with depth-first cycle detection followed by a topological
  sort), memoized lazy instantiation (startSingletons / startActions) and
  the multi-service start/stop lifecycle (startService / stopService) with
  its constructor-time reference validation.

  The JS code is embedded shallowly: names are strings, the registries are
  association lists, runtime state (started flags, memoized instances,
  running flags, cached resolved orders) is explicit, and every invocation
  of a user routine (singleton start, singleton stop, action compose,
  service start/stop handler) is recorded in an event log.  Recursions that
  are unbounded in JS carry a fuel argument; fuel exhaustion is a
  distinguished outcome proved unreachable for the fuel the code paths use.
-/

namespace Agata

/-- Component names are strings. -/
abbrev Name := String

/-- A JavaScript runtime value as far as the broker inspects one: a function
value (id only, the broker never calls composed functions itself), a number,
or undefined. -/
inductive JSVal where
  | fnv (id : Nat)
  | num (n : Int)
  | undef
deriving DecidableEq, Repr

/-- Model of lodash isFunction. -/
def isFunctionV : JSVal → Bool
  | .fnv _ => true
  | _ => false

/-- JavaScript truthiness of a JSVal: undefined and 0 are falsy. -/
def truthy : JSVal → Bool
  | .fnv _ => true
  | .num n => n != 0
  | .undef => false

/-- A dependency-graph node: the synthetic root (the Symbol created in
sortSingletons / sortActions) or a component name. -/
inductive Node where
  | root
  | name (s : Name)
deriving DecidableEq, Repr

/-- A singleton definition as broker.js consumes it: getRequiredSingletons()
returns the singletons field, and start is the user start routine receiving
the bag of required singleton instances.  The Singleton class itself
(src/singleton.js) is not under src/; these accessors are modelled from the
spec's data model (a Definition has a list of required singleton names and a
start routine taking an injected dependency bag). -/
structure SingletonDef where
  singletons : List Name := []
  start : (Name → Option JSVal) → JSVal := (fun _ => .undef)

/-- An action definition: getRequiredActions(), getRequiredSingletons() and
the compose routine fn, receiving the actions bag and the singletons bag.
Modelled from the spec for the Action class accessors, as with SingletonDef. -/
structure ActionDef where
  actions : List Name := []
  singletons : List Name := []
  fn : (Name → Option JSVal) → (Name → Option JSVal) → JSVal := (fun _ _ => .undef)

/-- A service definition: required singletons, required actions, local actions
(owned by the service, registered under the name service#action), and whether
a stop handler is present.  Modelled from the spec for the Service class
accessors, as with SingletonDef. -/
structure ServiceDef where
  singletons : List Name := []
  actions : List Name := []
  localActions : List (Name × ActionDef) := []
  hasStopHandler : Bool := false

/-- The broker's registries after construction (the constructor's
shape-validation and filesystem loading are outside the modelled core). -/
structure Broker where
  singletons : List (Name × SingletonDef) := []
  actions : List (Name × ActionDef) := []
  services : List (Name × ServiceDef) := []

/-- Association-list lookup, first binding wins (JS object property read). -/
def lookupA {α : Type} : List (Name × α) → Name → Option α
  | [], _ => none
  | (k, v) :: rest, x => if x = k then some v else lookupA rest x

/-- The action registry after the constructor merged every service's local
actions under the key service#action (broker.js 134-138). -/
def Broker.allActions (b : Broker) : List (Name × ActionDef) :=
  b.actions ++ b.services.flatMap
    (fun p => p.2.localActions.map (fun q => (p.1 ++ "#" ++ q.1, q.2)))

/-- Direct singleton dependencies of a registered singleton; an unregistered
name has no binding (in JS, indexing it would throw a TypeError, a situation
the constructor validation excludes for singletons). -/
def Broker.singletonDeps (b : Broker) (x : Name) : List Name :=
  ((lookupA b.singletons x).map SingletonDef.singletons).getD []

/-- Direct action dependencies of a registered action (same convention as
Broker.singletonDeps for unregistered names). -/
def Broker.actionDeps (b : Broker) (x : Name) : List Name :=
  ((lookupA b.allActions x).map ActionDef.actions).getD []

/-- Singleton requirements of a registered action. -/
def Broker.actionSingletonDeps (b : Broker) (x : Name) : List Name :=
  ((lookupA b.allActions x).map ActionDef.singletons).getD []

/-- JS Set insertion: append the element unless already present. -/
def addNew {α : Type} [DecidableEq α] (l : List α) (x : α) : List α :=
  if x ∈ l then l else l ++ [x]

/-- new Set(list), iterated in insertion order. -/
def dedupInit (l : List Name) : List Name := l.foldl addNew []

/-- Array.prototype.join(' -> ') on the cycle chain. -/
def joinArrow : List Name → String
  | [] => ""
  | [x] => x
  | x :: rest => x ++ " -> " ++ joinArrow rest

/-- Array.prototype.join('", "') on the not-included singleton list. -/
def joinQuoted : List Name → String
  | [] => ""
  | [x] => x
  | x :: rest => x ++ "\", \"" ++ joinQuoted rest

/-- Outcome of the getDependencies depth-first traversal: a circular-dependency
chain, or exhaustion of the fuel that makes the Lean model total (the JS
recursion carries no fuel; exhaustion is proved unreachable for the fuel the
sort functions pass). -/
inductive DfsErr where
  | fuel
  | cycle (chain : List Name)
deriving DecidableEq, Repr

/-- The forEach loop inside getDependencies, processing the direct dependencies
of nm in declaration order; rec is the recursive call at one unit of fuel
less. -/
def getDepsList (rec : Name → List Name → List Name → Except DfsErr (List Name)) :
    List Name → Name → List Name → List Name → Except DfsErr (List Name)
  | [], _, _, acc => .ok acc
  | d :: rest', nm, dependedBy, acc =>
    if nm ∈ dependedBy then
      .error (.cycle (dependedBy ++ [nm, d]))
    else
      match rec d (dependedBy ++ [nm]) acc with
      | .error e => .error e
      | .ok acc' => getDepsList rec rest' nm dependedBy acc'

/-- The inner getDependencies(name, dependedBy) of Broker.sortSingletons and
Broker.sortActions (broker.js 304-313 and 365-374): add name to the
accumulated set, then for each direct dependency d, throw a circular-dependency
error with chain dependedBy ++ [name, d] when name already occurs in the active
dependedBy chain, else recurse into d with the chain extended by name. -/
def getDeps (deps : Name → List Name) : Nat → Name → List Name → List Name →
    Except DfsErr (List Name)
  | 0, _, _, _ => .error .fuel
  | f + 1, nm, dependedBy, acc =>
    getDepsList (fun d db a => getDeps deps f d db a) (deps nm) nm dependedBy
      (addNew acc nm)

/-- requiredNames.forEach(name => getDependencies(name)): run the traversal
from every root in order, threading the accumulated set. -/
def runGetDeps (deps : Name → List Name) (fuel : Nat) :
    List Name → List Name → Except DfsErr (List Name)
  | [], acc => .ok acc
  | r :: rest, acc =>
    match getDeps deps fuel r [] acc with
    | .error e => .error e
    | .ok acc' => runGetDeps deps fuel rest acc'

/-- The accumulated dependency set of the traversal, as a plain list (empty
when the traversal fails); used to state hypotheses about the closure. -/
def depClosure (deps : Name → List Name) (fuel : Nat) (required : List Name) :
    List Name :=
  match runGetDeps deps fuel required (dedupInit required) with
  | .ok l => l
  | .error _ => []

/-- Sequential visiting of a child list, threading visited and sorted; rec is
the visit call at one unit of fuel less. -/
def visitList (rec : Node → List Node → List Node → List Node × List Node) :
    List Node → List Node → List Node → List Node × List Node
  | [], visited, sorted => (visited, sorted)
  | c :: rest, visited, sorted =>
    let vs := rec c visited sorted
    visitList rec rest vs.1 vs.2

/-- The visit function of the toposort npm package used by broker.js: skip a
visited node, otherwise mark it visited, visit its outgoing targets from the
last edge to the first, and emit the node before everything emitted earlier
(the package fills the sorted array from the end; the list here reads in the
same order as that array).  The package's own cyclic-input error is omitted:
broker.js reaches the sort only after its own cycle detection succeeded. -/
def visit (adj : Node → List Node) : Nat → Node → List Node → List Node →
    List Node × List Node
  | 0, _, visited, sorted => (visited, sorted)
  | f + 1, node, visited, sorted =>
    if node ∈ visited then (visited, sorted)
    else
      let vs := visitList (fun c v s => visit adj f c v s) ((adj node).reverse)
        (visited ++ [node]) sorted
      (vs.1, node :: vs.2)

/-- uniqueNodes of the toposort package: every edge endpoint in
first-appearance order. -/
def uniqueNodes (edges : List (Node × Node)) : List Node :=
  edges.foldl (fun acc e => addNew (addNew acc e.1) e.2) []

/-- makeOutgoingEdges of the toposort package: the outgoing targets of a node,
deduplicated, in edge order. -/
def adjOf (edges : List (Node × Node)) (x : Node) : List Node :=
  (edges.filter (fun e => e.1 = x)).foldl (fun acc e => addNew acc e.2) []

/-- Model of toposort(edges): DFS from the last collected node to the first;
the output lists every node before all nodes reachable from it along edges. -/
def toposort (edges : List (Node × Node)) : List Node :=
  let nodes := uniqueNodes edges
  (nodes.reverse.foldl
    (fun st x => visit (adjOf edges) (nodes.length + 1) x st.1 st.2)
    (([] : List Node), ([] : List Node))).2

/-- The edge list built by sortSingletons / sortActions: an edge from the
synthetic root to every directly required name, then an edge from every member
of the accumulated set to each of its direct dependencies. -/
def mkGraph (required all : List Name) (deps : Name → List Name) :
    List (Node × Node) :=
  required.map (fun i => (Node.root, Node.name i))
    ++ all.flatMap (fun nm => (deps nm).map (fun d => (Node.name nm, Node.name d)))

/-- sort(graph).reverse().slice(0, -1). -/
def topoOut (graph : List (Node × Node)) : List Node :=
  (toposort graph).reverse.dropLast

/-- Broker.sortSingletons (broker.js 287-314): run getDependencies from every
required singleton (cycle detection happens here, before any sorting), then
topologically sort the accumulated graph, reverse it into
dependencies-before-dependents order and slice off the synthetic root. -/
def Broker.sortSingletons (b : Broker) (requiredSingletons : List Name) :
    Except String (List Node) :=
  let deps := b.singletonDeps
  match runGetDeps deps (b.singletons.length + 1) requiredSingletons
      (dedupInit requiredSingletons) with
  | .error (.cycle chain) =>
    .error ("Found singletons circular dependency: " ++ joinArrow chain)
  | .error .fuel => .error "INSUFFICIENT FUEL"
  | .ok allSingletons =>
    .ok (topoOut (mkGraph requiredSingletons allSingletons deps))

/-- Model of lodash difference(l, m) as sortActions uses it: the elements of l
(action-required singleton names) not present in the already-resolved singleton
list m, in order. -/
def difference (l : List Name) (m : List Node) : List Name :=
  l.filter (fun x => ¬ (Node.name x ∈ m))

/-- The not-included-singletons pre-check of sortActions (broker.js 348-359),
run over every accumulated action before the graph is sorted. -/
def checkIncluded (b : Broker) (singletons : List Node) :
    List Name → Except String Unit
  | [] => .ok ()
  | a :: rest =>
    let notIncluded := difference (b.actionSingletonDeps a) singletons
    if notIncluded.isEmpty then checkIncluded b singletons rest
    else
      .error ("Action \"" ++ a ++ "\" requires not included singleton(s): \""
        ++ joinQuoted notIncluded ++ "\". Please add them to service definition")

/-- Broker.sortActions (broker.js 339-375): getDependencies cycle detection
first, then the singleton-presence pre-check on every accumulated action, then
the topological sort (in the JS the per-action check and the pushing of that
action's edges interleave; an error discards the partial graph, so checking
all actions before building the graph is observationally identical). -/
def Broker.sortActions (b : Broker) (requiredActions : List Name)
    (singletons : List Node) : Except String (List Node) :=
  let deps := b.actionDeps
  match runGetDeps deps (b.allActions.length + 1) requiredActions
      (dedupInit requiredActions) with
  | .error (.cycle chain) =>
    .error ("Found actions circular dependency: " ++ joinArrow chain)
  | .error .fuel => .error "INSUFFICIENT FUEL"
  | .ok allActions =>
    match checkIncluded b singletons allActions with
    | .error e => .error e
    | .ok _ => .ok (topoOut (mkGraph requiredActions allActions deps))

/-- One broker-level observable event: an invocation of a singleton start
routine, of Singleton.stop, of an action compose routine, or of a service
start handler / stop handler. -/
inductive Event where
  | startSing (s : Name)
  | stopSing (s : Name)
  | composeAct (s : Name)
  | serviceStart (s : Name)
  | serviceStopHandler (s : Name)
deriving DecidableEq, Repr

/-- Runtime state of a singleton registry entry: the started flag and the
memoized instance (undefined until the first start). -/
structure SingRT where
  started : Bool := false
  inst : JSVal := .undef
deriving DecidableEq, Repr

/-- Runtime state of an action registry entry: the memoized composed value
(initializedFn, undefined until the first composition). -/
structure ActRT where
  initializedFn : JSVal := .undef
deriving DecidableEq, Repr

/-- Runtime state of a service: the isRunning flag and the resolved orders
cached by startService (none until the first successful resolution; in JS a
read before that yields undefined and a later method call on it throws). -/
structure SrvRT where
  isRunning : Bool := false
  depSingletons : Option (List Node) := none
  depActions : Option (List Node) := none
deriving DecidableEq, Repr

/-- The mutable state of a broker: per-name singleton / action / service
runtime entries plus the event log of user-routine invocations. -/
structure BState where
  sing : Name → SingRT
  act : Name → ActRT
  srv : Name → SrvRT
  log : List Event

/-- The state right after construction: nothing started, nothing memoized,
nothing running. -/
def initState : BState :=
  { sing := fun _ => {}, act := fun _ => {}, srv := fun _ => {}, log := [] }

/-- Pointwise update of a state map. -/
def updF {α : Type} (m : Name → α) (k : Name) (v : α) : Name → α :=
  fun x => if x = k then v else m x

/-- JS object property write on a dependency bag / result object. -/
def updO (m : Name → Option JSVal) (k : Name) (v : JSVal) : Name → Option JSVal :=
  fun x => if x = k then some v else m x

/-- The error a JS property read on undefined raises; it occurs when a loop
indexes the singleton or action registry with the root symbol or with an
unregistered name. -/
def typeErr : String := "TypeError: Cannot read property of undefined"

/-- Broker.startSingletons (broker.js 317-336).  For each entry in order: if
the singleton is not yet started, build the bag of its required singletons'
current instances, set started, invoke the start routine and memoize the
returned instance; in every case record the instance under the name in the
result object. -/
def startSingletons (b : Broker) : BState → List Node → (Name → Option JSVal) →
    BState × Except String (Name → Option JSVal)
  | st, [], result => (st, .ok result)
  | st, .root :: _, _ => (st, .error typeErr)
  | st, .name nm :: rest, result =>
    match lookupA b.singletons nm with
    | none => (st, .error typeErr)
    | some sdef =>
      if (st.sing nm).started then
        startSingletons b st rest (updO result nm (st.sing nm).inst)
      else
        let bag := sdef.singletons.foldl
          (fun res d => updO res d (st.sing d).inst) (fun _ => none)
        let v := sdef.start bag
        let st' : BState :=
          { st with sing := updF st.sing nm { started := true, inst := v },
                    log := st.log ++ [.startSing nm] }
        startSingletons b st' rest (updO result nm v)

/-- The name an action is returned under: name.includes('#') ?
name.split('#')[1] : name. -/
def realName (nm : Name) : Name :=
  if nm.contains '#' then (nm.splitOn "#").getD 1 "" else nm

/-- Broker.startActions (broker.js 378-406).  For each entry in order: when
initializedFn is falsy, build the bags of required actions' composed values
and required singletons' instances, invoke the compose routine, cache its
return value on the registry entry and only then check that it is a function,
throwing when it is not; in every case record the cached value in the result
object under the local name (the part after a '#').  The JS inserts bag and
result entries with lodash set, which expands dotted names into nested
objects; the bags are modelled flat, keyed by the full name. -/
def startActions (b : Broker) : BState → List Node → (Name → Option JSVal) →
    BState × Except String (Name → Option JSVal)
  | st, [], result => (st, .ok result)
  | st, .root :: _, _ => (st, .error typeErr)
  | st, .name nm :: rest, result =>
    match lookupA b.allActions nm with
    | none => (st, .error typeErr)
    | some adef =>
      if truthy (st.act nm).initializedFn then
        startActions b st rest (updO result (realName nm) (st.act nm).initializedFn)
      else
        let actionsBag := adef.actions.foldl
          (fun res a => updO res a (st.act a).initializedFn) (fun _ => none)
        let singletonsBag := adef.singletons.foldl
          (fun res s => updO res s (st.sing s).inst) (fun _ => none)
        let v := adef.fn actionsBag singletonsBag
        let st' : BState :=
          { st with act := updF st.act nm { initializedFn := v },
                    log := st.log ++ [.composeAct nm] }
        if isFunctionV v then
          startActions b st' rest (updO result (realName nm) v)
        else
          (st', .error ("Action \"" ++ nm ++ "\" did not return function"))

/-- Broker.startService (broker.js 193-219): look the service up (NotFound
error otherwise), no-op when already running, set isRunning, resolve and
cache the singleton order then the action order (service actions plus
namespaced local actions, checked against the resolved singleton list), start
singletons, actions and local actions in that order, then invoke the start
handler.  The handler receives a bag assembled with lodash pick; it is user
code whose only broker-visible effect is its invocation, recorded as an
event. -/
def startService (b : Broker) (st : BState) (nm : Name) :
    BState × Except String Unit :=
  match lookupA b.services nm with
  | none => (st, .error ("Service with name \"" ++ nm ++ "\" not found"))
  | some svc =>
    if (st.srv nm).isRunning then (st, .ok ())
    else
      let st1 : BState :=
        { st with srv := updF st.srv nm { st.srv nm with isRunning := true } }
      let localActionsNames := svc.localActions.map (fun p => nm ++ "#" ++ p.1)
      match b.sortSingletons svc.singletons with
      | .error e => (st1, .error e)
      | .ok singOrder =>
        let st2 : BState :=
          { st1 with srv := updF st1.srv nm ({ st1.srv nm with depSingletons := some singOrder }) }
        match b.sortActions (svc.actions ++ localActionsNames) singOrder with
        | .error e => (st2, .error e)
        | .ok actOrder =>
          let st3 : BState :=
            { st2 with srv := updF st2.srv nm ({ st2.srv nm with depActions := some actOrder }) }
          match startSingletons b st3 singOrder (fun _ => none) with
          | (st4, .error e) => (st4, .error e)
          | (st4, .ok _) =>
            match startActions b st4 actOrder (fun _ => none) with
            | (st5, .error e) => (st5, .error e)
            | (st5, .ok _) =>
              match startActions b st5 (localActionsNames.map Node.name)
                  (fun _ => none) with
              | (st6, .error e) => (st6, .error e)
              | (st6, .ok _) =>
                ({ st6 with log := st6.log ++ [.serviceStart nm] }, .ok ())

/-- Broker.isServiceRunning (broker.js 269-271); looking up an unregistered
service throws NotFound. -/
def isServiceRunning (b : Broker) (st : BState) (nm : Name) :
    Except String Bool :=
  match lookupA b.services nm with
  | none => .error ("Service with name \"" ++ nm ++ "\" not found")
  | some _ => .ok (st.srv nm).isRunning

/-- Broker.getRunningServices (broker.js 277-279). -/
def getRunningServices (b : Broker) (st : BState) : List Name :=
  (b.services.map Prod.fst).filter (fun s => (st.srv s).isRunning)

/-- The reduce of stopService (broker.js 232-236): the union, in insertion
order, of the cached resolved singleton lists of the given services; reading
a service whose dependencies were never resolved throws in JS. -/
def collectStarted (st : BState) : List Name → List Node →
    Except String (List Node)
  | [], acc => .ok acc
  | s :: rest, acc =>
    match (st.srv s).depSingletons with
    | none => .error typeErr
    | some l => collectStarted st rest (acc ++ l.filter (fun x => ¬ x ∈ acc))

/-- The teardown loop of stopService (broker.js 239-242): for each singleton
in order, invoke its stop routine and clear its started flag (the memoized
instance is not cleared; a later start overwrites it). -/
def stopSingletonsLoop (b : Broker) : BState → List Node →
    BState × Except String Unit
  | st, [] => (st, .ok ())
  | st, .root :: _ => (st, .error typeErr)
  | st, .name s :: rest =>
    match lookupA b.singletons s with
    | none => (st, .error typeErr)
    | some _ =>
      let st' : BState :=
        { st with sing := updF st.sing s { st.sing s with started := false },
                  log := st.log ++ [.stopSing s] }
      stopSingletonsLoop b st' rest

/-- Broker.stopService (broker.js 222-245): no-op when not running (NotFound
when unregistered), invoke the stop handler if present, collect the singleton
names cached by every other running service, tear down this service's cached
singletons that are absent from that union, then clear isRunning. -/
def stopService (b : Broker) (st : BState) (nm : Name) :
    BState × Except String Unit :=
  match lookupA b.services nm with
  | none => (st, .error ("Service with name \"" ++ nm ++ "\" not found"))
  | some svc =>
    if ¬ (st.srv nm).isRunning then (st, .ok ())
    else
      let st1 : BState :=
        if svc.hasStopHandler then
          { st with log := st.log ++ [.serviceStopHandler nm] }
        else st
      let runningServices :=
        (getRunningServices b st1).filter (fun s => ¬ s = nm)
      match collectStarted st1 runningServices [] with
      | .error e => (st1, .error e)
      | .ok startedSingletons =>
        match (st1.srv nm).depSingletons with
        | none => (st1, .error typeErr)
        | some depList =>
          let singletonsToStop :=
            depList.filter (fun s => ¬ s ∈ startedSingletons)
          match stopSingletonsLoop b st1 singletonsToStop with
          | (st2, .error e) => (st2, .error e)
          | (st2, .ok _) =>
            ({ st2 with srv := updF st2.srv nm { st2.srv nm with isRunning := false } }, .ok ())

/-- A lifecycle operation issued by the host process. -/
inductive Op where
  | start (nm : Name)
  | stop (nm : Name)

/-- Run a sequence of lifecycle operations; a rejected operation leaves the
state it committed (JS exceptions do not roll the shared registries back). -/
def runOps (b : Broker) : List Op → BState → BState
  | [], st => st
  | .start nm :: rest, st => runOps b rest (startService b st nm).1
  | .stop nm :: rest, st => runOps b rest (stopService b st nm).1

/-- Existence of a name in the singleton registry. -/
def Broker.knownSingleton (b : Broker) (s : Name) : Bool :=
  (lookupA b.singletons s).isSome

/-- Existence of a name in the merged action registry. -/
def Broker.knownAction (b : Broker) (a : Name) : Bool :=
  (lookupA b.allActions a).isSome

/-- One forEach of the constructor validation: check each referenced name in
order, failing with the message built from the first unknown one. -/
def checkList (mk : Name → String) (known : Name → Bool) :
    List Name → Except String Unit
  | [] => .ok ()
  | s :: rest => if known s then checkList mk known rest else .error (mk s)

/-- Constructor validation over services (broker.js 160-170): every required
singleton must be registered, and every required action not starting with '#'
must be registered. -/
def checkServices (b : Broker) : List (Name × ServiceDef) → Except String Unit
  | [] => .ok ()
  | (nm, svc) :: rest =>
    match checkList
        (fun s => "Service \"" ++ nm ++ "\" requires unknown singleton \"" ++ s ++ "\"")
        b.knownSingleton svc.singletons with
    | .error e => .error e
    | .ok _ =>
      match checkList
          (fun a => "Service \"" ++ nm ++ "\" requires unknown action \"" ++ a ++ "\"")
          (fun a => a.startsWith "#" || b.knownAction a) svc.actions with
      | .error e => .error e
      | .ok _ => checkServices b rest

/-- Constructor validation over singletons (broker.js 172-177). -/
def checkSingletons (b : Broker) : List (Name × SingletonDef) → Except String Unit
  | [] => .ok ()
  | (nm, s) :: rest =>
    match checkList
        (fun d => "Singleton \"" ++ nm ++ "\" requires unknown singleton \"" ++ d ++ "\"")
        b.knownSingleton s.singletons with
    | .error e => .error e
    | .ok _ => checkSingletons b rest

/-- Constructor validation over actions (broker.js 179-184): only the
singleton requirements of each action are checked. -/
def checkActions (b : Broker) : List (Name × ActionDef) → Except String Unit
  | [] => .ok ()
  | (nm, a) :: rest =>
    match checkList
        (fun d => "Action \"" ++ nm ++ "\" requires unknown singleton \"" ++ d ++ "\"")
        b.knownSingleton a.singletons with
    | .error e => .error e
    | .ok _ => checkActions b rest

/-- The reference-existence validation at the end of the Broker constructor
(broker.js 160-185), run after local actions were merged into the action
registry and before any start operation can be issued. -/
def Broker.constructorCheck (b : Broker) : Except String Unit :=
  match checkServices b b.services with
  | .error e => .error e
  | .ok _ =>
    match checkSingletons b b.singletons with
    | .error e => .error e
    | .ok _ => checkActions b b.allActions

/-- Consecutive elements of the list are joined by direct dependency edges of
adj. -/
def isChainB {α : Type} [DecidableEq α] (adj : α → List α) : List α → Bool
  | [] => true
  | [_] => true
  | x :: y :: rest => (y ∈ adj x) && isChainB adj (y :: rest)

/-- There is a nonempty dependency path from x to y. -/
def Reaches {α : Type} [DecidableEq α] (adj : α → List α) (x y : α) : Prop :=
  ∃ l, isChainB adj (x :: (l ++ [y])) = true

/-- The dependency graph of adj has no (nonempty) cycle. -/
def Acyclic {α : Type} [DecidableEq α] (adj : α → List α) : Prop :=
  ∀ x l, isChainB adj (x :: (l ++ [x])) = false

/-- y occurs strictly after x in l. -/
def Below {α : Type} (l : List α) (x y : α) : Prop :=
  ∃ l1 l2, l = l1 ++ x :: l2 ∧ y ∈ l2

/-- A cycle of adj is reachable from x (possibly x lies on the cycle itself). -/
def CycleReachable {α : Type} [DecidableEq α] (adj : α → List α) (x : α) : Prop :=
  ∃ c l, isChainB adj (c :: (l ++ [c])) = true ∧ (x = c ∨ Reaches adj x c)

/-- A partial topological order: no duplicates, and the source of every edge
out of a listed element occurs strictly before its target. -/
def SortedOK (adj : Node → List Node) (sorted : List Node) : Prop :=
  sorted.Nodup ∧ ∀ x ∈ sorted, ∀ y ∈ adj x, Below sorted x y

/-- Scan of the event log legality for one singleton name: carrying the
started flag b left to right, a startSing event for nm is legal only while b
is false (the start routine runs at most once between a start and the
matching stop); stopSing resets the flag. -/
def logOk (nm : Name) : List Event → Bool → Bool
  | [], _ => true
  | e :: rest, b =>
    match e with
    | .startSing s => if s = nm then !b && logOk nm rest true else logOk nm rest b
    | .stopSing s => if s = nm then logOk nm rest false else logOk nm rest b
    | _ => logOk nm rest b

/-- The started flag for nm after replaying the log on top of b. -/
def startedAfter (nm : Name) : List Event → Bool → Bool
  | [], b => b
  | e :: rest, b =>
    match e with
    | .startSing s => startedAfter nm rest (if s = nm then true else b)
    | .stopSing s => startedAfter nm rest (if s = nm then false else b)
    | _ => startedAfter nm rest b

/-- The at-most-once invariant: every singleton's log is legal and the log
replay agrees with the stored started flag. -/
def InvC4 (st : BState) : Prop :=
  ∀ nm, logOk nm st.log false = true ∧
    startedAfter nm st.log false = (st.sing nm).started

/-- Acyclic two-singleton, two-action registry (a1 requires b1; action p1
requires action q1). -/
def bAcy : Broker :=
  { singletons := [("a1", { singletons := ["b1"] }), ("b1", {})],
    actions := [("p1", { actions := ["q1"], fn := fun _ _ => .fnv 0 }),
                ("q1", { fn := fun _ _ => .fnv 1 })] }

/-- Registry with a three-singleton cycle A -> B -> C -> A, a self-looping
action aX, and services requiring them. -/
def bCyc : Broker :=
  { singletons := [("A", { singletons := ["B"] }), ("B", { singletons := ["C"] }),
                   ("C", { singletons := ["A"] })],
    actions := [("aX", { actions := ["aX"] })],
    services := [("svc", { singletons := ["A"] }), ("svc2", { actions := ["aX"] })] }

/-- Registry with a self-looping singleton required by a service. -/
def bBug : Broker :=
  { singletons := [("A", { singletons := ["A"] })],
    services := [("svc", { singletons := ["A"] })] }

/-- Registry whose action a1 requires the unregistered action ghost. -/
def bC6 : Broker := { actions := [("a1", { actions := ["ghost"] })] }

/-- Registry whose action doIt requires singleton s9. -/
def bC7 : Broker :=
  { singletons := [("s9", {})],
    actions := [("doIt", { singletons := ["s9"] })] }

/-- Registry whose action bad composes to the truthy non-function 5. -/
def bC8 : Broker := { actions := [("bad", { fn := fun _ _ => .num 5 })] }

/-- Two services sharing singleton s1 (service A also requires s2, which
requires s1). -/
def bSvc : Broker :=
  { singletons := [("s1", { start := fun _ => .num 7 }),
                   ("s2", { singletons := ["s1"], start := fun _ => .num 8 })],
    services := [("A", { singletons := ["s2"] }), ("B", { singletons := ["s1"] })] }

/-- The name carried by a node (the root carries none; it never survives into
the sliced output on the proven paths). -/
def nodeStr : Node → Name
  | .root => ""
  | .name s => s

/-- A node that the teardown loop can process without a TypeError: a name
registered in the singleton registry. -/
def goodNode (b : Broker) : Node → Bool
  | .root => false
  | .name s => (lookupA b.singletons s).isSome

/-- Some service other than nm is currently running and lists the node in its
cached resolved singleton dependencies (the implicit reference count of
stopService). -/
def keptByOthersB (b : Broker) (st : BState) (nm : Name) (x : Node) : Bool :=
  (b.services.map Prod.fst).any (fun o =>
    (o ≠ nm : Bool) && (st.srv o).isRunning &&
      (match (st.srv o).depSingletons with
       | some l => x ∈ l
       | none => false))

/-- State of bSvc after starting service A and then service B. -/
def stSharedAB : BState :=
  (startService bSvc (startService bSvc initState "A").1 "B").1

/-- State of bSvc after starting A and B and then stopping B. -/
def stOnlyA : BState := (stopService bSvc stSharedAB "B").1

/-- Invariant tying the visited set of the toposort DFS to the grey stack G
(nodes currently being expanded) and the emitted output. -/
def VisitInv (adj : Node → List Node) (univ G visited sorted : List Node) : Prop :=
  visited ⊆ univ ∧ (∀ x, x ∈ visited ↔ x ∈ G ∨ x ∈ sorted) ∧
  (∀ x ∈ G, x ∉ sorted) ∧ SortedOK adj sorted

instance {ε α : Type} [DecidableEq ε] [DecidableEq α] :
    DecidableEq (Except ε α) := fun x y => by
  cases x <;> cases y
  case error.error a b => exact decidable_of_iff (a = b) (by simp)
  case ok.ok a b => exact decidable_of_iff (a = b) (by simp)
  all_goals exact isFalse (by simp)

/-! Basic lemmas about addNew, dedupInit and dependency chains. -/

theorem mem_addNew {α : Type} [DecidableEq α] (l : List α) (x y : α) :
    y ∈ addNew l x ↔ y ∈ l ∨ y = x := by
  unfold addNew
  by_cases h : x ∈ l
  · simp only [if_pos h]
    constructor
    · exact .inl
    · rintro (h' | rfl)
      · exact h'
      · exact h
  · simp [if_neg h]

theorem subset_addNew {α : Type} [DecidableEq α] (l : List α) (x : α) :
    l ⊆ addNew l x := by
  intro y hy; rw [mem_addNew]; exact .inl hy

theorem self_mem_addNew {α : Type} [DecidableEq α] (l : List α) (x : α) :
    x ∈ addNew l x := by
  rw [mem_addNew]; right; rfl

theorem mem_foldl_addNew {α : Type} [DecidableEq α] (l : List α) :
    ∀ (init : List α) (x : α), x ∈ l.foldl addNew init ↔ x ∈ init ∨ x ∈ l := by
  induction l with
  | nil => simp
  | cons a l ih =>
    intro init x
    simp only [List.foldl_cons, ih, mem_addNew, List.mem_cons]
    tauto

theorem mem_dedupInit (l : List Name) (x : Name) :
    x ∈ dedupInit l ↔ x ∈ l := by
  unfold dedupInit; rw [mem_foldl_addNew]; simp

theorem isChainB_pair {α : Type} [DecidableEq α] (adj : α → List α) (x y : α) :
    isChainB adj [x, y] = true ↔ y ∈ adj x := by
  simp [isChainB]

theorem isChainB_cons_cons {α : Type} [DecidableEq α] (adj : α → List α)
    (x y : α) (rest : List α) :
    isChainB adj (x :: y :: rest) = true ↔
      y ∈ adj x ∧ isChainB adj (y :: rest) = true := by
  simp [isChainB]

theorem isChainB_append {α : Type} [DecidableEq α] (adj : α → List α) :
    ∀ (xs : List α) (y : α) (ys : List α),
      isChainB adj (xs ++ y :: ys) = true ↔
        isChainB adj (xs ++ [y]) = true ∧ isChainB adj (y :: ys) = true := by
  intro xs
  induction xs with
  | nil => intro y ys; simp [isChainB]
  | cons a xs ih =>
    intro y ys
    cases xs with
    | nil =>
      rw [show ([a] ++ y :: ys) = a :: y :: ys from rfl,
          show ([a] ++ [y]) = [a, y] from rfl, isChainB_cons_cons, isChainB_pair]
    | cons b xs =>
      rw [show ((a :: b :: xs) ++ y :: ys) = a :: ((b :: xs) ++ y :: ys) from rfl,
          show ((a :: b :: xs) ++ [y]) = a :: ((b :: xs) ++ [y]) from rfl,
          show (a :: ((b :: xs) ++ y :: ys)) = a :: b :: (xs ++ y :: ys) from rfl,
          show (a :: ((b :: xs) ++ [y])) = a :: b :: (xs ++ [y]) from rfl,
          isChainB_cons_cons, isChainB_cons_cons,
          show (b :: (xs ++ y :: ys)) = (b :: xs) ++ y :: ys from rfl,
          show (b :: (xs ++ [y])) = (b :: xs) ++ [y] from rfl, ih y ys]
      tauto

theorem isChainB_snoc {α : Type} [DecidableEq α] (adj : α → List α)
    (xs : List α) (x y : α) (h : isChainB adj (xs ++ [x]) = true)
    (hy : y ∈ adj x) : isChainB adj (xs ++ [x, y]) = true := by
  have : xs ++ [x, y] = xs ++ x :: [y] := rfl
  rw [this, isChainB_append]
  exact ⟨h, by rw [isChainB_pair]; exact hy⟩

theorem reaches_step {α : Type} [DecidableEq α] (adj : α → List α) (x y : α)
    (h : y ∈ adj x) : Reaches adj x y :=
  ⟨[], by simpa [isChainB_pair] using h⟩

theorem reaches_trans {α : Type} [DecidableEq α] (adj : α → List α) (x y z : α)
    (h1 : Reaches adj x y) (h2 : Reaches adj y z) : Reaches adj x z := by
  obtain ⟨l1, h1⟩ := h1
  obtain ⟨l2, h2⟩ := h2
  refine ⟨l1 ++ y :: l2, ?_⟩
  have e : x :: ((l1 ++ y :: l2) ++ [z]) = (x :: l1) ++ y :: (l2 ++ [z]) := by simp
  rw [e, isChainB_append]
  constructor
  · simpa using h1
  · exact h2

theorem reaches_head {α : Type} [DecidableEq α] (adj : α → List α) (x y z : α)
    (h : y ∈ adj x) (h2 : z = y ∨ Reaches adj y z) : Reaches adj x z := by
  rcases h2 with rfl | h2
  · exact reaches_step adj x _ h
  · exact reaches_trans adj x y z (reaches_step adj x y h) h2

theorem acyclic_not_reaches_self {α : Type} [DecidableEq α] (adj : α → List α)
    (hAc : Acyclic adj) (x : α) : ¬ Reaches adj x x := by
  rintro ⟨l, hl⟩
  rw [hAc x l] at hl
  exact Bool.false_ne_true hl

/-! Lemmas about the getDependencies traversal. -/

theorem getDepsList_ok_spec (deps : Name → List Name)
    (rec : Name → List Name → List Name → Except DfsErr (List Name))
    (hrec : ∀ d db a a', rec d db a = .ok a' →
      a ⊆ a' ∧ d ∈ a' ∧ deps d ⊆ a' ∧
      (∀ x ∈ a', x ∈ a ∨ deps x ⊆ a') ∧
      (∀ x ∈ a', x ∈ a ∨ x = d ∨ Reaches deps d x)) :
    ∀ (rest : List Name) (nm : Name) (db acc acc' : List Name),
      rest ⊆ deps nm →
      getDepsList rec rest nm db acc = .ok acc' →
      acc ⊆ acc' ∧ (∀ d ∈ rest, d ∈ acc') ∧
      (∀ x ∈ acc', x ∈ acc ∨ deps x ⊆ acc') ∧
      (∀ x ∈ acc', x ∈ acc ∨ Reaches deps nm x) := by
  intro rest
  induction rest with
  | nil =>
    intro nm db acc acc' _ h
    simp only [getDepsList] at h
    cases h
    exact ⟨fun _ h => h, by simp, fun x hx => .inl hx, fun x hx => .inl hx⟩
  | cons d rest ih =>
    intro nm db acc acc' hsub h
    simp only [getDepsList] at h
    split at h
    · cases h
    · cases hc : rec d (db ++ [nm]) acc with
      | error e => rw [hc] at h; cases h
      | ok a1 =>
        rw [hc] at h
        have hd : d ∈ deps nm := hsub (by simp)
        have hsub' : rest ⊆ deps nm := fun x hx => hsub (by simp [hx])
        obtain ⟨h1, h2, h3, h4, h5⟩ := hrec d (db ++ [nm]) acc a1 hc
        obtain ⟨g1, g2, g3, g4⟩ := ih nm db a1 acc' hsub' h
        refine ⟨fun x hx => g1 (h1 hx), ?_, ?_, ?_⟩
        · intro e he
          rcases List.mem_cons.mp he with rfl | he
          · exact g1 h2
          · exact g2 e he
        · intro x hx
          rcases g3 x hx with hx1 | hx1
          · rcases h4 x hx1 with hx2 | hx2
            · exact .inl hx2
            · exact .inr (fun z hz => g1 (hx2 hz))
          · exact .inr hx1
        · intro x hx
          rcases g4 x hx with hx1 | hx1
          · rcases h5 x hx1 with hx2 | hx2
            · exact .inl hx2
            · exact .inr (reaches_head deps nm d x hd hx2)
          · exact .inr hx1

theorem getDeps_ok_spec (deps : Name → List Name) :
    ∀ (f : Nat) (nm : Name) (db a a' : List Name),
      getDeps deps f nm db a = .ok a' →
      a ⊆ a' ∧ nm ∈ a' ∧ deps nm ⊆ a' ∧
      (∀ x ∈ a', x ∈ a ∨ deps x ⊆ a') ∧
      (∀ x ∈ a', x ∈ a ∨ x = nm ∨ Reaches deps nm x) := by
  intro f
  induction f with
  | zero => intro nm db a a' h; simp [getDeps] at h
  | succ f ih =>
    intro nm db a a' h
    simp only [getDeps] at h
    obtain ⟨g1, g2, g3, g4⟩ :=
      getDepsList_ok_spec deps _ (fun d db a a' hh => ih d db a a' hh)
        (deps nm) nm db (addNew a nm) a' (fun x hx => hx) h
    have hsub : a ⊆ a' := fun x hx => g1 (subset_addNew a nm hx)
    have hnm : nm ∈ a' := g1 (self_mem_addNew a nm)
    refine ⟨hsub, hnm, fun x hx => g2 x hx, ?_, ?_⟩
    · intro x hx
      rcases g3 x hx with hx1 | hx1
      · rcases (mem_addNew a nm x).mp hx1 with hx2 | rfl
        · exact .inl hx2
        · exact .inr (fun z hz => g2 z hz)
      · exact .inr hx1
    · intro x hx
      rcases g4 x hx with hx1 | hx1
      · rcases (mem_addNew a nm x).mp hx1 with hx2 | rfl
        · exact .inl hx2
        · exact .inr (.inl rfl)
      · exact .inr (.inr hx1)

theorem getDepsList_ok_children
    (rec : Name → List Name → List Name → Except DfsErr (List Name)) :
    ∀ (rest : List Name) (nm : Name) (db acc acc' : List Name),
      getDepsList rec rest nm db acc = .ok acc' →
      ∀ d ∈ rest, ∃ a a', rec d (db ++ [nm]) a = .ok a' := by
  intro rest
  induction rest with
  | nil => intro nm db acc acc' _ d hd; cases hd
  | cons c rest ih =>
    intro nm db acc acc' h d hd
    simp only [getDepsList] at h
    split at h
    · cases h
    · cases hc : rec c (db ++ [nm]) acc with
      | error e => rw [hc] at h; cases h
      | ok a1 =>
        rw [hc] at h
        rcases List.mem_cons.mp hd with rfl | hd
        · exact ⟨acc, a1, hc⟩
        · exact ih nm db a1 acc' h d hd

theorem getDeps_ok_walk (deps : Name → List Name) :
    ∀ (f : Nat) (nm : Name) (db a a' : List Name),
      getDeps deps f nm db a = .ok a' →
      ∀ l, isChainB deps (nm :: l) = true → l.length < f := by
  intro f
  induction f with
  | zero => intro nm db a a' h; simp [getDeps] at h
  | succ f ih =>
    intro nm db a a' h l hl
    cases l with
    | nil => simp
    | cons d l =>
      simp only [getDeps] at h
      rw [isChainB_cons_cons] at hl
      obtain ⟨hd, hl⟩ := hl
      obtain ⟨a0, a1, hc⟩ :=
        getDepsList_ok_children _ (deps nm) nm db (addNew a nm) a' h d hd
      have := ih d (db ++ [nm]) a0 a1 hc l hl
      simpa using Nat.succ_lt_succ this

theorem getDepsList_fuel_src
    (rec : Name → List Name → List Name → Except DfsErr (List Name)) :
    ∀ (rest : List Name) (nm : Name) (db acc : List Name),
      getDepsList rec rest nm db acc = .error .fuel →
      nm ∉ db ∧ rest ≠ [] ∧
        ∃ d ∈ rest, ∃ a, rec d (db ++ [nm]) a = .error .fuel := by
  intro rest
  induction rest with
  | nil => intro nm db acc h; simp [getDepsList] at h
  | cons c rest ih =>
    intro nm db acc h
    simp only [getDepsList] at h
    split at h
    · cases h
    · rename_i hmem
      cases hc : rec c (db ++ [nm]) acc with
      | error e =>
        rw [hc] at h
        cases h
        exact ⟨hmem, by simp, c, by simp, acc, hc⟩
      | ok a1 =>
        rw [hc] at h
        obtain ⟨g1, _, d, hd, a, ha⟩ := ih nm db a1 h
        exact ⟨g1, by simp, d, by simp [hd], a, ha⟩

theorem getDeps_no_fuel (deps : Name → List Name) (K : List Name)
    (hK : ∀ x, deps x ≠ [] → x ∈ K) :
    ∀ (f : Nat) (nm : Name) (db a : List Name), db.Nodup →
      (∀ x ∈ db, deps x ≠ []) → K.length < f + db.length →
      getDeps deps f nm db a ≠ .error .fuel := by
  intro f
  induction f with
  | zero =>
    intro nm db a hnd hne hlen _
    have hsub : db ⊆ K := fun x hx => hK x (hne x hx)
    have := (List.subperm_of_subset hnd hsub).length_le
    omega
  | succ f ih =>
    intro nm db a hnd hne hlen h
    simp only [getDeps] at h
    obtain ⟨hnm, hrest, d, hd, a0, ha⟩ := getDepsList_fuel_src _ (deps nm) nm db _ h
    have hdepnm : deps nm ≠ [] := fun hh => hrest hh
    refine ih d (db ++ [nm]) a0 ?_ ?_ ?_ ha
    · simpa [List.nodup_append] using ⟨hnd, hnm⟩
    · intro x hx
      rcases List.mem_append.mp hx with hx | hx
      · exact hne x hx
      · simp at hx; rw [hx]; exact hdepnm
    · simp; omega

theorem getDepsList_cycle_src
    (rec : Name → List Name → List Name → Except DfsErr (List Name)) :
    ∀ (rest : List Name) (nm : Name) (db acc : List Name) (chain : List Name),
      getDepsList rec rest nm db acc = .error (.cycle chain) →
      (∃ d ∈ rest, chain = db ++ [nm, d] ∧ nm ∈ db) ∨
      (∃ d ∈ rest, ∃ a, rec d (db ++ [nm]) a = .error (.cycle chain)) := by
  intro rest
  induction rest with
  | nil => intro nm db acc chain h; simp [getDepsList] at h
  | cons c rest ih =>
    intro nm db acc chain h
    simp only [getDepsList] at h
    split at h
    · rename_i hmem
      cases h
      exact .inl ⟨c, by simp, rfl, hmem⟩
    · cases hc : rec c (db ++ [nm]) acc with
      | error e =>
        rw [hc] at h
        cases h
        exact .inr ⟨c, by simp, acc, hc⟩
      | ok a1 =>
        rw [hc] at h
        rcases ih nm db a1 chain h with ⟨d, hd, h1, h2⟩ | ⟨d, hd, a, ha⟩
        · exact .inl ⟨d, by simp [hd], h1, h2⟩
        · exact .inr ⟨d, by simp [hd], a, ha⟩

theorem getDeps_cycle_spec (deps : Name → List Name) :
    ∀ (f : Nat) (nm : Name) (db a : List Name) (chain : List Name),
      getDeps deps f nm db a = .error (.cycle chain) →
      isChainB deps (db ++ [nm]) = true →
      ∃ pre x d, chain = pre ++ [x, d] ∧ isChainB deps chain = true ∧ x ∈ pre := by
  intro f
  induction f with
  | zero => intro nm db a chain h; simp [getDeps] at h
  | succ f ih =>
    intro nm db a chain h hchain
    simp only [getDeps] at h
    rcases getDepsList_cycle_src _ (deps nm) nm db _ chain h with
      ⟨d, hd, rfl, hmem⟩ | ⟨d, hd, a0, ha⟩
    · exact ⟨db, nm, d, rfl, isChainB_snoc deps db nm d hchain hd, hmem⟩
    · have hchain' : isChainB deps ((db ++ [nm]) ++ [d]) = true := by
        have : (db ++ [nm]) ++ [d] = db ++ [nm, d] := by simp
        rw [this]
        exact isChainB_snoc deps db nm d hchain hd
      exact ih d (db ++ [nm]) a0 chain ha hchain'

theorem isChainB_of_append_left {α : Type} [DecidableEq α] (adj : α → List α) :
    ∀ (xs ys : List α), isChainB adj (xs ++ ys) = true → isChainB adj xs = true := by
  intro xs
  induction xs with
  | nil => intro ys _; rfl
  | cons a xs ih =>
    intro ys h
    cases xs with
    | nil => rfl
    | cons b xs =>
      rw [show ((a :: b :: xs) ++ ys) = a :: b :: (xs ++ ys) from rfl,
          isChainB_cons_cons] at h
      rw [isChainB_cons_cons]
      exact ⟨h.1, ih ys h.2⟩

/-- A chain whose second-to-last element repeats an earlier element contains a
closed chain, contradicting acyclicity. -/
theorem closed_chain_of_repeat (deps : Name → List Name) (chain pre : List Name)
    (x d : Name) (h1 : chain = pre ++ [x, d])
    (h2 : isChainB deps chain = true) (h3 : x ∈ pre) (hAc : Acyclic deps) :
    False := by
  obtain ⟨p1, p2, rfl⟩ := List.append_of_mem h3
  rw [h1] at h2
  have e : (p1 ++ x :: p2) ++ [x, d] = p1 ++ x :: (p2 ++ [x, d]) := by simp
  rw [e] at h2
  have h4 : isChainB deps (x :: (p2 ++ [x, d])) = true := by
    rcases p1 with _ | ⟨a1, p1⟩
    · simpa using h2
    · rw [isChainB_append] at h2
      exact h2.2
  have e3 : x :: (p2 ++ [x, d]) = (x :: (p2 ++ [x])) ++ [d] := by simp
  rw [e3] at h4
  have h5 := isChainB_of_append_left deps (x :: (p2 ++ [x])) [d] h4
  rw [hAc x p2] at h5
  exact Bool.false_ne_true h5

theorem runGetDeps_ok_spec (deps : Name → List Name) (f : Nat) :
    ∀ (roots acc all : List Name),
      runGetDeps deps f roots acc = .ok all →
      acc ⊆ all ∧ (∀ r ∈ roots, r ∈ all ∧ deps r ⊆ all) ∧
      (∀ x ∈ all, x ∈ acc ∨ deps x ⊆ all) ∧
      (∀ x ∈ all, x ∈ acc ∨ ∃ r ∈ roots, x = r ∨ Reaches deps r x) := by
  intro roots
  induction roots with
  | nil =>
    intro acc all h
    simp only [runGetDeps] at h
    cases h
    exact ⟨fun _ h => h, by simp, fun x hx => .inl hx, fun x hx => .inl hx⟩
  | cons r roots ih =>
    intro acc all h
    simp only [runGetDeps] at h
    cases hc : getDeps deps f r [] acc with
    | error e => rw [hc] at h; cases h
    | ok a1 =>
      rw [hc] at h
      obtain ⟨h1, h2, h3, h4, h5⟩ := getDeps_ok_spec deps f r [] acc a1 hc
      obtain ⟨g1, g2, g3, g4⟩ := ih a1 all h
      refine ⟨fun x hx => g1 (h1 hx), ?_, ?_, ?_⟩
      · intro e he
        rcases List.mem_cons.mp he with rfl | he
        · exact ⟨g1 h2, fun z hz => g1 (h3 hz)⟩
        · exact g2 e he
      · intro x hx
        rcases g3 x hx with hx1 | hx1
        · rcases h4 x hx1 with hx2 | hx2
          · exact .inl hx2
          · exact .inr (fun z hz => g1 (hx2 hz))
        · exact .inr hx1
      · intro x hx
        rcases g4 x hx with hx1 | hx1
        · rcases h5 x hx1 with hx2 | hx2
          · exact .inl hx2
          · exact .inr ⟨r, by simp, hx2⟩
        · obtain ⟨r', hr', hx2⟩ := hx1
          exact .inr ⟨r', by simp [hr'], hx2⟩

theorem runGetDeps_ok_calls (deps : Name → List Name) (f : Nat) :
    ∀ (roots acc all : List Name),
      runGetDeps deps f roots acc = .ok all →
      ∀ r ∈ roots, ∃ a a', getDeps deps f r [] a = .ok a' := by
  intro roots
  induction roots with
  | nil => intro acc all _ r hr; cases hr
  | cons c roots ih =>
    intro acc all h r hr
    simp only [runGetDeps] at h
    cases hc : getDeps deps f c [] acc with
    | error e => rw [hc] at h; cases h
    | ok a1 =>
      rw [hc] at h
      rcases List.mem_cons.mp hr with rfl | hr
      · exact ⟨acc, a1, hc⟩
      · exact ih a1 all h r hr

theorem runGetDeps_error_src (deps : Name → List Name) (f : Nat) :
    ∀ (roots acc : List Name) (e : DfsErr),
      runGetDeps deps f roots acc = .error e →
      ∃ r ∈ roots, ∃ a, getDeps deps f r [] a = .error e := by
  intro roots
  induction roots with
  | nil => intro acc e h; simp [runGetDeps] at h
  | cons c roots ih =>
    intro acc e h
    simp only [runGetDeps] at h
    cases hc : getDeps deps f c [] acc with
    | error e' =>
      rw [hc] at h
      cases h
      exact ⟨c, by simp, acc, hc⟩
    | ok a1 =>
      rw [hc] at h
      obtain ⟨r, hr, a, ha⟩ := ih a1 e h
      exact ⟨r, by simp [hr], a, ha⟩

/-- A closed chain pumps to chains of unbounded length. -/
theorem cycle_pump (deps : Name → List Name) (c : Name) (l : List Name)
    (hcyc : isChainB deps (c :: (l ++ [c])) = true) :
    ∀ n : Nat, ∃ m, isChainB deps (c :: (m ++ [c])) = true ∧ n ≤ m.length := by
  intro n
  induction n with
  | zero => exact ⟨l, hcyc, Nat.zero_le _⟩
  | succ n ih =>
    obtain ⟨m, hm, hlen⟩ := ih
    refine ⟨m ++ c :: l, ?_, ?_⟩
    · have e : c :: ((m ++ c :: l) ++ [c]) = (c :: m) ++ c :: (l ++ [c]) := by simp
      rw [e, isChainB_append]
      constructor
      · simpa using hm
      · exact hcyc
    · simp; omega

/-- A reachable cycle gives chains of unbounded length out of x. -/
theorem cycle_reachable_long (deps : Name → List Name) (x : Name)
    (h : CycleReachable deps x) :
    ∀ n : Nat, ∃ m, isChainB deps (x :: m) = true ∧ n ≤ m.length := by
  intro n
  obtain ⟨c, l, hcyc, hreach⟩ := h
  rcases hreach with rfl | ⟨w, hw⟩
  · obtain ⟨m, hm, hlen⟩ := cycle_pump deps x l hcyc n
    exact ⟨m ++ [x], hm, by simp; omega⟩
  · obtain ⟨m, hm, hlen⟩ := cycle_pump deps c l hcyc n
    refine ⟨w ++ c :: (m ++ [c]), ?_, by simp; omega⟩
    have e : x :: (w ++ c :: (m ++ [c])) = (x :: w) ++ c :: (m ++ [c]) := by simp
    rw [e, isChainB_append]
    constructor
    · simpa using hw
    · exact hm

/-- With a cycle reachable from some root, the traversal neither succeeds nor
runs out of fuel: it reports a circular dependency, and the reported chain is
a genuine dependency chain whose second-to-last element repeats an earlier
element (the walk into the cycle, around it, and one step further). -/
theorem runGetDeps_cycle (deps : Name → List Name) (K : List Name)
    (hK : ∀ x, deps x ≠ [] → x ∈ K) (f : Nat) (hf : K.length < f)
    (roots acc : List Name) (r : Name) (hr : r ∈ roots)
    (hcyc : CycleReachable deps r) :
    ∃ chain, runGetDeps deps f roots acc = .error (.cycle chain) ∧
      isChainB deps chain = true ∧
      ∃ pre x d, chain = pre ++ [x, d] ∧ x ∈ pre := by
  cases hres : runGetDeps deps f roots acc with
  | ok all =>
    obtain ⟨a, a', hok⟩ := runGetDeps_ok_calls deps f roots acc all hres r hr
    obtain ⟨m, hm, hlen⟩ := cycle_reachable_long deps r hcyc f
    have := getDeps_ok_walk deps f r [] a a' hok m hm
    omega
  | error e =>
    cases e with
    | fuel =>
      obtain ⟨r', _, a, ha⟩ := runGetDeps_error_src deps f roots acc .fuel hres
      exact absurd ha
        (getDeps_no_fuel deps K hK f r' [] a (by simp) (by simp) (by simpa) )
    | cycle chain =>
      obtain ⟨r', _, a, ha⟩ :=
        runGetDeps_error_src deps f roots acc (.cycle chain) hres
      obtain ⟨pre, x, d, h1, h2, h3⟩ :=
        getDeps_cycle_spec deps f r' [] a chain ha (by simp [isChainB])
      exact ⟨chain, rfl, h2, pre, x, d, h1, h3⟩

/-- Under acyclicity the traversal succeeds. -/
theorem runGetDeps_acyclic_ok (deps : Name → List Name) (K : List Name)
    (hK : ∀ x, deps x ≠ [] → x ∈ K) (f : Nat) (hf : K.length < f)
    (hAc : Acyclic deps) (roots acc : List Name) :
    ∃ all, runGetDeps deps f roots acc = .ok all := by
  cases hres : runGetDeps deps f roots acc with
  | ok all => exact ⟨all, rfl⟩
  | error e =>
    exfalso
    cases e with
    | fuel =>
      obtain ⟨r', _, a, ha⟩ := runGetDeps_error_src deps f roots acc .fuel hres
      exact getDeps_no_fuel deps K hK f r' [] a (by simp) (by simp) (by simpa) ha
    | cycle chain =>
      obtain ⟨r', _, a, ha⟩ :=
        runGetDeps_error_src deps f roots acc (.cycle chain) hres
      obtain ⟨pre, x, d, h1, h2, h3⟩ :=
        getDeps_cycle_spec deps f r' [] a chain ha (by simp [isChainB])
      exact closed_chain_of_repeat deps chain pre x d h1 h2 h3 hAc

/-! Lemmas about Below (strict precedence inside a list). -/

theorem below_extend {α : Type} (l Δ : List α) (x y : α) (h : Below l x y) :
    Below (Δ ++ l) x y := by
  obtain ⟨l1, l2, rfl, hy⟩ := h
  exact ⟨Δ ++ l1, l2, by simp, hy⟩

theorem below_cons {α : Type} (l : List α) (a x y : α) (h : Below l x y) :
    Below (a :: l) x y := below_extend l [a] x y h

theorem below_head {α : Type} (l : List α) (x y : α) (hy : y ∈ l) :
    Below (x :: l) x y := ⟨[], l, rfl, hy⟩

theorem below_mem_right {α : Type} (l : List α) (x y : α) (h : Below l x y) :
    y ∈ l := by
  obtain ⟨l1, l2, rfl, hy⟩ := h
  simp [hy]

theorem below_reverse {α : Type} (l : List α) (x y : α) (h : Below l x y) :
    Below l.reverse y x := by
  obtain ⟨l1, l2, rfl, hy⟩ := h
  obtain ⟨p, q, rfl⟩ := List.append_of_mem hy
  refine ⟨q.reverse, p.reverse ++ x :: l1.reverse, by simp, by simp⟩

theorem below_not_head {α : Type} (h : α) (t : List α) (x : α)
    (hnd : (h :: t).Nodup) : ¬ Below (h :: t) x h := by
  rintro ⟨l1, l2, heq, hmem⟩
  have hnotmem : h ∉ t := (List.nodup_cons.mp hnd).1
  cases l1 with
  | nil =>
    injection heq with e1 e2
    subst e2
    exact hnotmem hmem
  | cons a l1 =>
    injection heq with e1 e2
    apply hnotmem
    rw [e2]
    simp [hmem]

theorem below_tail {α : Type} (a : α) (l : List α) (x y : α)
    (h : Below (a :: l) x y) (hne : x ≠ a) : Below l x y := by
  obtain ⟨l1, l2, heq, hy⟩ := h
  cases l1 with
  | nil => simp at heq; exact absurd heq.1.symm hne
  | cons b l1 =>
    simp at heq
    exact ⟨l1, l2, heq.2, hy⟩

theorem mem_split_unique {α : Type} (y : α) :
    ∀ (a b c d : List α), a ++ y :: b = c ++ y :: d →
      (a ++ y :: b).Nodup → a = c ∧ b = d := by
  intro a
  induction a with
  | nil =>
    intro b c d h hnd
    cases c with
    | nil => simp at h; exact ⟨rfl, h⟩
    | cons c0 c' =>
      simp at h
      obtain ⟨rfl, h⟩ := h
      simp at hnd
      exact absurd (by rw [h]; simp : y ∈ b) hnd.1
  | cons a0 a' ih =>
    intro b c d h hnd
    cases c with
    | nil =>
      simp at h
      obtain ⟨rfl, h⟩ := h
      simp at hnd
    | cons c0 c' =>
      simp at h
      obtain ⟨rfl, h⟩ := h
      simp at hnd
      obtain ⟨h1, h2⟩ := ih b c' d h hnd.2
      exact ⟨by rw [h1], h2⟩

theorem below_trans {α : Type} (l : List α) (hnd : l.Nodup) (x y z : α)
    (h1 : Below l x y) (h2 : Below l y z) : Below l x z := by
  obtain ⟨l1, l2, rfl, hy⟩ := h1
  obtain ⟨m1, m2, heq, hz⟩ := h2
  obtain ⟨p, q, rfl⟩ := List.append_of_mem hy
  have e : l1 ++ x :: (p ++ y :: q) = (l1 ++ x :: p) ++ y :: q := by simp
  rw [e] at heq hnd
  obtain ⟨_, h4⟩ := mem_split_unique y _ _ _ _ heq hnd
  refine ⟨l1, p ++ y :: q, by simp, ?_⟩
  subst h4
  simp [hz]

/-! Counting lemmas for the DFS fuel. -/

theorem filterNot_length_mono (univ v v' : List Node) (h : v ⊆ v') :
    (univ.filter (fun x => ¬ x ∈ v')).length ≤
      (univ.filter (fun x => ¬ x ∈ v)).length := by
  refine List.Sublist.length_le (List.monotone_filter_right univ ?_)
  intro a ha
  simp only [decide_eq_true_eq] at ha ⊢
  exact fun hv => ha (h hv)

theorem filterNot_length_strict (univ v : List Node) (node : Node)
    (h1 : node ∈ univ) (h2 : node ∉ v) :
    (univ.filter (fun x => ¬ x ∈ (v ++ [node]))).length <
      (univ.filter (fun x => ¬ x ∈ v)).length := by
  have hsub : List.Sublist (univ.filter (fun x => ¬ x ∈ (v ++ [node])))
      (univ.filter (fun x => ¬ x ∈ v)) := by
    refine List.monotone_filter_right univ ?_
    intro a ha
    simp only [decide_eq_true_eq, List.mem_append] at ha ⊢
    exact fun hv => ha (.inl hv)
  rcases hsub.length_le.lt_or_eq with hlt | heqlen
  · exact hlt
  · exfalso
    have heq := hsub.eq_of_length heqlen
    have hmem : node ∈ univ.filter (fun x => ¬ x ∈ v) := by
      simp [List.mem_filter, h1, h2]
    rw [← heq] at hmem
    simp [List.mem_filter] at hmem

/-! Correctness of the modelled toposort package on acyclic inputs. -/

theorem grey_cycle {α : Type} [DecidableEq α] (adj : α → List α)
    (hAc : Acyclic adj) (G : List α) (node : α)
    (hchain : isChainB adj (G ++ [node]) = true) (hmem : node ∈ G) : False := by
  obtain ⟨g1, g2, rfl⟩ := List.append_of_mem hmem
  have e : (g1 ++ node :: g2) ++ [node] = g1 ++ node :: (g2 ++ [node]) := by simp
  rw [e] at hchain
  have h4 : isChainB adj (node :: (g2 ++ [node])) = true := by
    rcases g1 with _ | ⟨a1, g1⟩
    · simpa using hchain
    · rw [isChainB_append] at hchain
      exact hchain.2
  rw [hAc node g2] at h4
  exact Bool.false_ne_true h4

theorem visitList_spec (adj : Node → List Node) (univ : List Node)
    (rec : Node → List Node → List Node → List Node × List Node)
    (G : List Node) (F : Nat)
    (hrec : ∀ (node : Node) (visited sorted : List Node),
      (univ.filter (fun x => ¬ x ∈ visited)).length < F →
      node ∈ univ → VisitInv adj univ G visited sorted →
      isChainB adj (G ++ [node]) = true →
      (∃ Δ, (rec node visited sorted).2 = Δ ++ sorted) ∧
      VisitInv adj univ G (rec node visited sorted).1 (rec node visited sorted).2 ∧
      node ∈ (rec node visited sorted).2 ∧
      visited ⊆ (rec node visited sorted).1) :
    ∀ (children visited sorted : List Node),
      (univ.filter (fun x => ¬ x ∈ visited)).length < F →
      (∀ c ∈ children, c ∈ univ) →
      VisitInv adj univ G visited sorted →
      (∀ c ∈ children, isChainB adj (G ++ [c]) = true) →
      (∃ Δ, (visitList rec children visited sorted).2 = Δ ++ sorted) ∧
      VisitInv adj univ G (visitList rec children visited sorted).1
        (visitList rec children visited sorted).2 ∧
      (∀ c ∈ children, c ∈ (visitList rec children visited sorted).2) ∧
      visited ⊆ (visitList rec children visited sorted).1 := by
  intro children
  induction children with
  | nil =>
    intro visited sorted _ _ hinv _
    exact ⟨⟨[], rfl⟩, hinv, by simp, fun _ h => h⟩
  | cons c rest ih =>
    intro visited sorted hflen hcu hinv hchains
    have hc := hrec c visited sorted hflen (hcu c (by simp)) hinv
      (hchains c (by simp))
    obtain ⟨⟨Δ1, hΔ1⟩, hinv1, hcmem, hmono1⟩ := hc
    have hflen1 : (univ.filter
        (fun x => ¬ x ∈ (rec c visited sorted).1)).length < F :=
      lt_of_le_of_lt (filterNot_length_mono univ visited _ hmono1) hflen
    have hrest := ih (rec c visited sorted).1 (rec c visited sorted).2 hflen1
      (fun x hx => hcu x (by simp [hx])) hinv1
      (fun x hx => hchains x (by simp [hx]))
    obtain ⟨⟨Δ2, hΔ2⟩, hinv2, hmem2, hmono2⟩ := hrest
    have hres : visitList rec (c :: rest) visited sorted =
        visitList rec rest (rec c visited sorted).1 (rec c visited sorted).2 := by
      simp [visitList]
    rw [hres]
    refine ⟨⟨Δ2 ++ Δ1, by rw [hΔ2, hΔ1]; simp⟩, hinv2, ?_, ?_⟩
    · intro x hx
      rcases List.mem_cons.mp hx with rfl | hx
      · rw [hΔ2]; simp [hcmem]
      · exact hmem2 x hx
    · exact fun x hx => hmono2 (hmono1 hx)

theorem visit_spec (adj : Node → List Node) (univ : List Node)
    (hadj : ∀ x, ∀ y ∈ adj x, y ∈ univ) (hAc : Acyclic adj) :
    ∀ (fuel : Nat) (node : Node) (visited sorted G : List Node),
      (univ.filter (fun x => ¬ x ∈ visited)).length < fuel →
      node ∈ univ →
      VisitInv adj univ G visited sorted →
      isChainB adj (G ++ [node]) = true →
      (∃ Δ, (visit adj fuel node visited sorted).2 = Δ ++ sorted) ∧
      VisitInv adj univ G (visit adj fuel node visited sorted).1
        (visit adj fuel node visited sorted).2 ∧
      node ∈ (visit adj fuel node visited sorted).2 ∧
      visited ⊆ (visit adj fuel node visited sorted).1 := by
  intro fuel
  induction fuel with
  | zero => intro node visited sorted G hf; omega
  | succ f ih =>
    intro node visited sorted G hf hnode hinv hchain
    obtain ⟨hvU, hset, hdisj, hsorted⟩ := hinv
    by_cases hv : node ∈ visited
    · have hres : visit adj (f + 1) node visited sorted = (visited, sorted) := by
        simp [visit, hv]
      rw [hres]
      have hnode_s : node ∈ sorted := by
        rcases (hset node).mp hv with hG | hs
        · exact (grey_cycle adj hAc G node hchain hG).elim
        · exact hs
      exact ⟨⟨[], rfl⟩, ⟨hvU, hset, hdisj, hsorted⟩, hnode_s, fun _ h => h⟩
    · have hres : visit adj (f + 1) node visited sorted =
          ((visitList (fun c v s => visit adj f c v s) ((adj node).reverse)
            (visited ++ [node]) sorted).1,
           node :: (visitList (fun c v s => visit adj f c v s) ((adj node).reverse)
            (visited ++ [node]) sorted).2) := by
        simp [visit, hv]
      have hnode_ns : node ∉ sorted := fun hs => hv ((hset node).mpr (.inr hs))
      have hnode_nG : node ∉ G := fun hG => hv ((hset node).mpr (.inl hG))
      have hinv' : VisitInv adj univ (G ++ [node]) (visited ++ [node]) sorted := by
        refine ⟨?_, ?_, ?_, hsorted⟩
        · intro x hx
          rcases List.mem_append.mp hx with h | h
          · exact hvU h
          · simp at h; rw [h]; exact hnode
        · intro x
          constructor
          · intro hx
            rcases List.mem_append.mp hx with h | h
            · rcases (hset x).mp h with h1 | h1
              · exact .inl (by simp [h1])
              · exact .inr h1
            · simp at h; exact .inl (by simp [h])
          · intro hx
            rcases hx with h1 | h1
            · rcases List.mem_append.mp h1 with h2 | h2
              · exact List.mem_append.mpr (.inl ((hset x).mpr (.inl h2)))
              · exact List.mem_append.mpr (.inr h2)
            · exact List.mem_append.mpr (.inl ((hset x).mpr (.inr h1)))
        · intro x hx
          rcases List.mem_append.mp hx with h | h
          · exact hdisj x h
          · simp at h; rw [h]; exact hnode_ns
      have hchains : ∀ c ∈ (adj node).reverse,
          isChainB adj ((G ++ [node]) ++ [c]) = true := by
        intro c hc
        rw [List.mem_reverse] at hc
        have h5 := isChainB_snoc adj G node c hchain hc
        have e : (G ++ [node]) ++ [c] = G ++ [node, c] := by simp
        rw [e]
        exact h5
      have hflen : (univ.filter
          (fun x => ¬ x ∈ (visited ++ [node]))).length < f := by
        have := filterNot_length_strict univ visited node hnode hv
        omega
      have hcu : ∀ c ∈ (adj node).reverse, c ∈ univ := by
        intro c hc
        rw [List.mem_reverse] at hc
        exact hadj node c hc
      obtain ⟨⟨Δ, hΔ⟩, ⟨hvU2, hset2, hdisj2, hsorted2⟩, hchild, hmono⟩ :=
        visitList_spec adj univ (fun c v s => visit adj f c v s) (G ++ [node]) f
          (fun nd v s hflt hnd hin hch => ih nd v s (G ++ [node]) hflt hnd hin hch)
          ((adj node).reverse) (visited ++ [node]) sorted hflen hcu hinv' hchains
      rw [hres]
      set vs := visitList (fun c v s => visit adj f c v s) ((adj node).reverse)
        (visited ++ [node]) sorted with hvs
      have hnode_nvs : node ∉ vs.2 := hdisj2 node (by simp)
      refine ⟨⟨node :: Δ, by simp [hΔ]⟩, ⟨hvU2, ?_, ?_, ?_⟩, by simp, ?_⟩
      · intro x
        rw [hset2 x]
        constructor
        · intro hx
          rcases hx with h1 | h1
          · rcases List.mem_append.mp h1 with h2 | h2
            · exact .inl h2
            · simp at h2; exact .inr (by simp [h2])
          · exact .inr (by simp [h1])
        · intro hx
          rcases hx with h1 | h1
          · exact .inl (List.mem_append.mpr (.inl h1))
          · rcases List.mem_cons.mp h1 with h2 | h2
            · exact .inl (by simp [h2])
            · exact .inr h2
      · intro x hx
        intro hmem
        rcases List.mem_cons.mp hmem with h1 | h1
        · rw [h1] at hx; exact hnode_nG hx
        · exact hdisj2 x (List.mem_append.mpr (.inl hx)) h1
      · constructor
        · rw [List.nodup_cons]
          exact ⟨hnode_nvs, hsorted2.1⟩
        · intro x hx y hy
          rcases List.mem_cons.mp hx with rfl | hx
          · exact below_head vs.2 x y (hchild y (List.mem_reverse.mpr hy))
          · exact below_cons vs.2 node x y (hsorted2.2 x hx y hy)
      · exact fun x hx => hmono (List.mem_append.mpr (.inl hx))

theorem mem_foldl_addNew_pair (edges : List (Node × Node)) :
    ∀ (init : List Node) (x : Node),
      x ∈ edges.foldl (fun acc e => addNew (addNew acc e.1) e.2) init ↔
        x ∈ init ∨ ∃ e ∈ edges, x = e.1 ∨ x = e.2 := by
  induction edges with
  | nil => simp
  | cons e edges ih =>
    intro init x
    rw [List.foldl_cons, ih]
    simp only [mem_addNew, List.mem_cons]
    constructor
    · rintro (((h | h) | h) | ⟨e', he', h⟩)
      · exact .inl h
      · exact .inr ⟨e, .inl rfl, .inl h⟩
      · exact .inr ⟨e, .inl rfl, .inr h⟩
      · exact .inr ⟨e', .inr he', h⟩
    · rintro (h | ⟨e', (rfl | he'), h⟩)
      · exact .inl (.inl (.inl h))
      · rcases h with h | h
        · exact .inl (.inl (.inr h))
        · exact .inl (.inr h)
      · exact .inr ⟨e', he', h⟩

theorem mem_uniqueNodes (edges : List (Node × Node)) (x : Node) :
    x ∈ uniqueNodes edges ↔ ∃ e ∈ edges, x = e.1 ∨ x = e.2 := by
  unfold uniqueNodes
  rw [mem_foldl_addNew_pair]
  simp

theorem mem_foldl_addNew_snd (l : List (Node × Node)) :
    ∀ (init : List Node) (y : Node),
      y ∈ l.foldl (fun acc e => addNew acc e.2) init ↔
        y ∈ init ∨ ∃ e ∈ l, y = e.2 := by
  induction l with
  | nil => simp
  | cons e l ih =>
    intro init y
    rw [List.foldl_cons, ih]
    simp only [mem_addNew, List.mem_cons]
    constructor
    · rintro ((h | h) | ⟨e', he', h⟩)
      · exact .inl h
      · exact .inr ⟨e, .inl rfl, h⟩
      · exact .inr ⟨e', .inr he', h⟩
    · rintro (h | ⟨e', (rfl | he'), h⟩)
      · exact .inl (.inl h)
      · exact .inl (.inr h)
      · exact .inr ⟨e', he', h⟩

theorem mem_adjOf (edges : List (Node × Node)) (x y : Node) :
    y ∈ adjOf edges x ↔ (x, y) ∈ edges := by
  unfold adjOf
  rw [mem_foldl_addNew_snd]
  simp only [List.mem_filter, decide_eq_true_eq, List.not_mem_nil, false_or]
  constructor
  · rintro ⟨e, ⟨he, hx⟩, rfl⟩
    have : e = (x, e.2) := by
      cases e; simp at hx; simp [hx]
    rw [← this]
    exact he
  · intro h
    exact ⟨(x, y), ⟨h, rfl⟩, rfl⟩

theorem toposort_fold_spec (adj : Node → List Node) (univ : List Node)
    (hadj : ∀ x, ∀ y ∈ adj x, y ∈ univ) (hAc : Acyclic adj) (F : Nat)
    (hF : univ.length < F) :
    ∀ (todo : List Node) (v s : List Node),
      (∀ x ∈ todo, x ∈ univ) →
      VisitInv adj univ [] v s →
      VisitInv adj univ []
        (todo.foldl (fun st x => visit adj F x st.1 st.2) (v, s)).1
        (todo.foldl (fun st x => visit adj F x st.1 st.2) (v, s)).2 ∧
      (∀ x ∈ todo,
        x ∈ (todo.foldl (fun st x => visit adj F x st.1 st.2) (v, s)).2) ∧
      (∀ x ∈ s,
        x ∈ (todo.foldl (fun st x => visit adj F x st.1 st.2) (v, s)).2) := by
  intro todo
  induction todo with
  | nil => intro v s _ hinv; exact ⟨hinv, by simp, fun x hx => hx⟩
  | cons nd todo ih =>
    intro v s htodo hinv
    have hflen : (univ.filter (fun x => ¬ x ∈ v)).length < F :=
      lt_of_le_of_lt (List.length_filter_le _ univ) hF
    obtain ⟨⟨Δ, hΔ⟩, hinv1, hnd1, _⟩ :=
      visit_spec adj univ hadj hAc F nd v s [] hflen (htodo nd (by simp)) hinv
        (by simp [isChainB])
    have hres : (nd :: todo).foldl (fun st x => visit adj F x st.1 st.2) (v, s) =
        todo.foldl (fun st x => visit adj F x st.1 st.2)
          ((visit adj F nd v s).1, (visit adj F nd v s).2) := by
      simp [List.foldl_cons]
    rw [hres]
    obtain ⟨hinv2, hmem2, hkeep2⟩ :=
      ih (visit adj F nd v s).1 (visit adj F nd v s).2
        (fun x hx => htodo x (by simp [hx])) hinv1
    refine ⟨hinv2, ?_, ?_⟩
    · intro x hx
      rcases List.mem_cons.mp hx with rfl | hx
      · exact hkeep2 x hnd1
      · exact hmem2 x hx
    · intro x hx
      refine hkeep2 x ?_
      rw [hΔ]
      simp [hx]

theorem toposort_spec (edges : List (Node × Node))
    (hAc : Acyclic (adjOf edges)) :
    SortedOK (adjOf edges) (toposort edges) ∧
    (∀ x, x ∈ toposort edges ↔ x ∈ uniqueNodes edges) := by
  have hadj : ∀ x, ∀ y ∈ adjOf edges x, y ∈ uniqueNodes edges := by
    intro x y hy
    rw [mem_adjOf] at hy
    exact (mem_uniqueNodes edges y).mpr ⟨(x, y), hy, .inr rfl⟩
  have he : toposort edges =
      ((uniqueNodes edges).reverse.foldl
        (fun st x => visit (adjOf edges) ((uniqueNodes edges).length + 1) x st.1 st.2)
        ([], [])).2 := rfl
  obtain ⟨⟨hvU, hset, _, hsorted⟩, htodo, _⟩ :=
    toposort_fold_spec (adjOf edges) (uniqueNodes edges) hadj hAc
      ((uniqueNodes edges).length + 1) (by omega)
      (uniqueNodes edges).reverse [] []
      (fun x hx => List.mem_reverse.mp hx)
      ⟨by simp, by simp, by simp, List.nodup_nil, by simp⟩
  rw [he]
  refine ⟨hsorted, ?_⟩
  intro x
  constructor
  · intro hx
    exact hvU ((hset x).mpr (.inr hx))
  · intro hx
    exact htodo x (List.mem_reverse.mpr hx)

theorem toposort_edge_below (edges : List (Node × Node))
    (hAc : Acyclic (adjOf edges)) (a b : Node) (hmem : (a, b) ∈ edges) :
    Below (toposort edges) a b := by
  obtain ⟨hsorted, hmem'⟩ := toposort_spec edges hAc
  have ha : a ∈ toposort edges :=
    (hmem' a).mpr ((mem_uniqueNodes edges a).mpr ⟨(a, b), hmem, .inl rfl⟩)
  exact hsorted.2 a ha b ((mem_adjOf edges a b).mpr hmem)

/-! The graph fed to the sort, and lifting name-level facts to node level. -/

theorem mkGraph_edge_cases (required all : List Name) (deps : Name → List Name)
    (u v : Node) (h : (u, v) ∈ mkGraph required all deps) :
    (u = Node.root ∧ ∃ r ∈ required, v = Node.name r) ∨
    (∃ x d, u = Node.name x ∧ v = Node.name d ∧ x ∈ all ∧ d ∈ deps x) := by
  unfold mkGraph at h
  rw [List.mem_append] at h
  rcases h with h | h
  · rw [List.mem_map] at h
    obtain ⟨r, hr, he⟩ := h
    left
    have h1 : Node.root = u ∧ Node.name r = v := by simpa using he
    exact ⟨h1.1.symm, r, hr, h1.2.symm⟩
  · rw [List.mem_flatMap] at h
    obtain ⟨x, hx, he⟩ := h
    rw [List.mem_map] at he
    obtain ⟨d, hd, he⟩ := he
    right
    have h1 : Node.name x = u ∧ Node.name d = v := by simpa using he
    exact ⟨x, d, h1.1.symm, h1.2.symm, hx, hd⟩

theorem mkGraph_root_edge (required all : List Name) (deps : Name → List Name)
    (r : Name) (hr : r ∈ required) :
    (Node.root, Node.name r) ∈ mkGraph required all deps := by
  unfold mkGraph
  rw [List.mem_append]
  left
  rw [List.mem_map]
  exact ⟨r, hr, rfl⟩

theorem mkGraph_dep_edge (required all : List Name) (deps : Name → List Name)
    (x d : Name) (hx : x ∈ all) (hd : d ∈ deps x) :
    (Node.name x, Node.name d) ∈ mkGraph required all deps := by
  unfold mkGraph
  rw [List.mem_append]
  right
  rw [List.mem_flatMap]
  exact ⟨x, hx, by rw [List.mem_map]; exact ⟨d, hd, rfl⟩⟩

theorem mkGraph_target_name (required all : List Name) (deps : Name → List Name)
    (u v : Node) (h : v ∈ adjOf (mkGraph required all deps) u) :
    ∃ s, v = Node.name s := by
  rw [mem_adjOf] at h
  rcases mkGraph_edge_cases required all deps u v h with ⟨_, r, _, hv⟩ | ⟨x, d, _, hv, _⟩
  · exact ⟨r, hv⟩
  · exact ⟨d, hv⟩

theorem mkGraph_step_names (required all : List Name) (deps : Name → List Name)
    (a b : Name) (h : Node.name b ∈ adjOf (mkGraph required all deps) (Node.name a)) :
    b ∈ deps a ∧ a ∈ all := by
  rw [mem_adjOf] at h
  rcases mkGraph_edge_cases required all deps _ _ h with ⟨hu, _⟩ | ⟨x, d, hu, hv, hx, hd⟩
  · cases hu
  · have e1 : a = x := by simpa using hu
    have e2 : b = d := by simpa using hv
    rw [e1, e2]
    exact ⟨hd, hx⟩

theorem mkGraph_chain_names (required all : List Name) (deps : Name → List Name) :
    ∀ (l : List Node) (a : Name),
      isChainB (adjOf (mkGraph required all deps)) (Node.name a :: l) = true →
      ∃ m : List Name, l = m.map Node.name ∧ isChainB deps (a :: m) = true := by
  intro l
  induction l with
  | nil => intro a _; exact ⟨[], rfl, rfl⟩
  | cons v l ih =>
    intro a h
    rw [isChainB_cons_cons] at h
    obtain ⟨hv, hrest⟩ := h
    obtain ⟨b, rfl⟩ := mkGraph_target_name required all deps _ v hv
    obtain ⟨hb, _⟩ := mkGraph_step_names required all deps a b hv
    obtain ⟨m, rfl, hm⟩ := ih b hrest
    exact ⟨b :: m, rfl, by rw [isChainB_cons_cons]; exact ⟨hb, hm⟩⟩

theorem chain_last_target {α : Type} [DecidableEq α] (adj : α → List α) :
    ∀ (l : List α) (x y : α), isChainB adj (x :: (l ++ [y])) = true →
      ∃ p ∈ x :: l, y ∈ adj p := by
  intro l
  induction l with
  | nil =>
    intro x y h
    rw [show (x :: ([] ++ [y])) = [x, y] from rfl, isChainB_pair] at h
    exact ⟨x, by simp, h⟩
  | cons h0 l ih =>
    intro x y h
    rw [show (x :: ((h0 :: l) ++ [y])) = x :: h0 :: (l ++ [y]) from rfl,
        isChainB_cons_cons] at h
    obtain ⟨p, hp, hy⟩ := ih h0 y h.2
    exact ⟨p, by simp at hp ⊢; tauto, hy⟩

theorem chain_all_mem (deps : Name → List Name) (all : List Name)
    (hclosed : ∀ z ∈ all, deps z ⊆ all) :
    ∀ (m : List Name) (x : Name), isChainB deps (x :: m) = true → x ∈ all →
      ∀ z ∈ m, z ∈ all := by
  intro m
  induction m with
  | nil => intro x _ _ z hz; cases hz
  | cons h0 m ih =>
    intro x hchain hx z hz
    rw [isChainB_cons_cons] at hchain
    have h0mem : h0 ∈ all := hclosed x hx hchain.1
    rcases List.mem_cons.mp hz with rfl | hz
    · exact h0mem
    · exact ih h0 hchain.2 h0mem z hz

theorem reaches_mem_closed (deps : Name → List Name) (all : List Name)
    (hclosed : ∀ z ∈ all, deps z ⊆ all) (x y : Name) (hx : x ∈ all)
    (h : Reaches deps x y) : y ∈ all := by
  obtain ⟨m, hm⟩ := h
  exact chain_all_mem deps all hclosed (m ++ [y]) x hm hx y (by simp)

theorem mkGraph_acyclic (required all : List Name) (deps : Name → List Name)
    (hAc : Acyclic deps) : Acyclic (adjOf (mkGraph required all deps)) := by
  intro u l
  by_contra hcon
  rw [Bool.not_eq_false] at hcon
  obtain ⟨p, _, hplast⟩ := chain_last_target _ l u u hcon
  obtain ⟨a, rfl⟩ := mkGraph_target_name required all deps p u hplast
  obtain ⟨m, hmap, hm⟩ := mkGraph_chain_names required all deps (l ++ [Node.name a]) a hcon
  rcases List.eq_nil_or_concat m with rfl | ⟨m', last, rfl⟩
  · simp at hmap
  · rw [List.concat_eq_append] at hmap hm
    rw [List.map_append] at hmap
    obtain ⟨_, hlast⟩ := List.append_inj' hmap (by rfl)
    have h1 : Node.name a = Node.name last := by
      injection hlast with h _
    have h2 : last = a := by
      injection h1 with h
      exact h.symm
    rw [h2] at hm
    rw [hAc a m'] at hm
    exact Bool.false_ne_true hm

theorem lookupA_not_mem_none {α : Type} :
    ∀ (l : List (Name × α)) (x : Name), x ∉ l.map Prod.fst → lookupA l x = none := by
  intro l
  induction l with
  | nil => intro x _; rfl
  | cons kv l ih =>
    intro x h
    obtain ⟨k, v⟩ := kv
    rw [List.map_cons, List.mem_cons] at h
    push_neg at h
    simp only [lookupA]
    rw [if_neg h.1]
    exact ih x h.2

/-- Core correctness of the resolution pipeline shared by sortSingletons and
sortActions: under acyclicity the traversal succeeds, and the reversed,
root-sliced sort output contains exactly the accumulated closure, without the
root, with every name strictly after each of its transitive dependencies. -/
theorem sortCore_spec (deps : Name → List Name) (K : List Name)
    (hK : ∀ x, deps x ≠ [] → x ∈ K) (f : Nat) (hf : K.length < f)
    (hAc : Acyclic deps) (required : List Name) :
    ∃ all, runGetDeps deps f required (dedupInit required) = .ok all ∧
      (∀ r ∈ required, r ∈ all) ∧
      (∀ x ∈ all, deps x ⊆ all) ∧
      Node.root ∉ topoOut (mkGraph required all deps) ∧
      (topoOut (mkGraph required all deps)).Nodup ∧
      (∀ x, Node.name x ∈ topoOut (mkGraph required all deps) ↔ x ∈ all) ∧
      (∀ x y, Node.name x ∈ topoOut (mkGraph required all deps) →
        Reaches deps x y →
        Node.name y ∈ topoOut (mkGraph required all deps) ∧
        Below (topoOut (mkGraph required all deps)) (Node.name y) (Node.name x)) := by
  obtain ⟨all, hall⟩ :=
    runGetDeps_acyclic_ok deps K hK f hf hAc required (dedupInit required)
  obtain ⟨hinit, hroots, hclo1, hclo2⟩ :=
    runGetDeps_ok_spec deps f required (dedupInit required) all hall
  have hclosed : ∀ x ∈ all, deps x ⊆ all := by
    intro x hx
    rcases hclo1 x hx with h | h
    · exact (hroots x ((mem_dedupInit required x).mp h)).2
    · exact h
  have hreq : ∀ r ∈ required, r ∈ all := fun r hr => (hroots r hr).1
  have hreach : ∀ x ∈ all, ∃ r ∈ required, x = r ∨ Reaches deps r x := by
    intro x hx
    rcases hclo2 x hx with h | h
    · exact ⟨x, (mem_dedupInit required x).mp h, .inl rfl⟩
    · exact h
  have hnAc := mkGraph_acyclic required all deps hAc
  obtain ⟨⟨hnodup, hord⟩, hmemiff⟩ := toposort_spec (mkGraph required all deps) hnAc
  have hname_mem : ∀ y : Name,
      Node.name y ∈ uniqueNodes (mkGraph required all deps) ↔ y ∈ all := by
    intro y
    constructor
    · intro hy
      rw [mem_uniqueNodes] at hy
      obtain ⟨e, he, hcase⟩ := hy
      rcases mkGraph_edge_cases required all deps e.1 e.2 he with
        ⟨h1, r, hr, h2⟩ | ⟨x, d, h1, h2, hx, hd⟩
      · rcases hcase with hc | hc
        · exact absurd (hc.trans h1) (by simp)
        · have hyr : y = r := by simpa using hc.trans h2
          rw [hyr]
          exact hreq r hr
      · rcases hcase with hc | hc
        · have hyx : y = x := by simpa using hc.trans h1
          rw [hyx]
          exact hx
        · have hyd : y = d := by simpa using hc.trans h2
          rw [hyd]
          exact hclosed x hx hd
    · intro hy
      obtain ⟨r, hr, hcase⟩ := hreach y hy
      rcases hcase with rfl | hre
      · exact (mem_uniqueNodes _ _).mpr
          ⟨(Node.root, Node.name y), mkGraph_root_edge required all deps y hr, .inr rfl⟩
      · obtain ⟨m, hm⟩ := hre
        obtain ⟨p, hp, hyp⟩ := chain_last_target deps m r y hm
        have hpall : p ∈ all := by
          rcases List.mem_cons.mp hp with rfl | hp
          · exact hreq p hr
          · exact chain_all_mem deps all hclosed (m ++ [y]) r hm (hreq r hr) p
              (List.mem_append.mpr (.inl hp))
        exact (mem_uniqueNodes _ _).mpr
          ⟨(Node.name p, Node.name y), mkGraph_dep_edge required all deps p y hpall hyp,
            .inr rfl⟩
  have huniq_cases : ∀ z ∈ uniqueNodes (mkGraph required all deps),
      z = Node.root ∨ ∃ y ∈ all, z = Node.name y := by
    intro z hz
    rw [mem_uniqueNodes] at hz
    obtain ⟨e, he, hcase⟩ := hz
    rcases mkGraph_edge_cases required all deps e.1 e.2 he with
      ⟨h1, r, hr, h2⟩ | ⟨x, d, h1, h2, hx, hd⟩
    · rcases hcase with hc | hc
      · exact .inl (by rw [hc, ← h1])
      · exact .inr ⟨r, hreq r hr, by rw [hc, ← h2]⟩
    · rcases hcase with hc | hc
      · exact .inr ⟨x, hx, by rw [hc, ← h1]⟩
      · exact .inr ⟨d, hclosed x hx hd, by rw [hc, ← h2]⟩
  have hreaches_below : ∀ x y, x ∈ all → Reaches deps x y →
      Below (toposort (mkGraph required all deps)) (Node.name x) (Node.name y) := by
    intro x y hx hre
    obtain ⟨m, hm⟩ := hre
    induction m generalizing x with
    | nil =>
      rw [show (x :: ([] ++ [y])) = [x, y] from rfl, isChainB_pair] at hm
      exact toposort_edge_below _ hnAc _ _ (mkGraph_dep_edge required all deps x y hx hm)
    | cons h0 m ih =>
      rw [show (x :: ((h0 :: m) ++ [y])) = x :: h0 :: (m ++ [y]) from rfl,
          isChainB_cons_cons] at hm
      have hb1 : Below (toposort (mkGraph required all deps))
          (Node.name x) (Node.name h0) :=
        toposort_edge_below _ hnAc _ _ (mkGraph_dep_edge required all deps x h0 hx hm.1)
      have hh0all : h0 ∈ all := hclosed x hx hm.1
      exact below_trans _ hnodup _ _ _ hb1 (ih h0 hh0all hm.2)
  by_cases hreqnil : required = []
  · subst hreqnil
    have hallnil : all = [] := by
      have h0 : runGetDeps deps f [] (dedupInit []) = .ok [] := rfl
      rw [h0] at hall
      injection hall with h
      exact h.symm
    subst hallnil
    refine ⟨[], hall, by simp, by simp, ?_, ?_, ?_, ?_⟩
    · show Node.root ∉ topoOut (mkGraph [] [] deps)
      rw [show topoOut (mkGraph [] [] deps) = [] from rfl]
      simp
    · rw [show topoOut (mkGraph [] [] deps) = [] from rfl]
      exact List.nodup_nil
    · intro x
      rw [show topoOut (mkGraph [] [] deps) = [] from rfl]
      simp
    · intro x y hx
      rw [show topoOut (mkGraph [] [] deps) = [] from rfl] at hx
      cases hx
  · have hrootmem : Node.root ∈ toposort (mkGraph required all deps) := by
      obtain ⟨r, hr⟩ := List.exists_mem_of_ne_nil required hreqnil
      exact (hmemiff _).mpr ((mem_uniqueNodes _ _).mpr
        ⟨(Node.root, Node.name r), mkGraph_root_edge required all deps r hr, .inl rfl⟩)
    obtain ⟨h0, rest, hsplit⟩ : ∃ h0 rest,
        toposort (mkGraph required all deps) = h0 :: rest := by
      cases hs : toposort (mkGraph required all deps) with
      | nil => rw [hs] at hrootmem; cases hrootmem
      | cons a t => exact ⟨a, t, rfl⟩
    have hbelow_root : ∀ z ∈ toposort (mkGraph required all deps), z ≠ Node.root →
        Below (toposort (mkGraph required all deps)) Node.root z := by
      intro z hz hzne
      rcases huniq_cases z ((hmemiff z).mp hz) with h | ⟨y, hy, rfl⟩
      · exact absurd h hzne
      · obtain ⟨r, hr, hcase⟩ := hreach y hy
        have hbr : Below (toposort (mkGraph required all deps))
            Node.root (Node.name r) :=
          toposort_edge_below _ hnAc _ _ (mkGraph_root_edge required all deps r hr)
        rcases hcase with rfl | hre
        · exact hbr
        · exact below_trans _ hnodup _ _ _ hbr (hreaches_below r y (hreq r hr) hre)
    have hh0 : h0 = Node.root := by
      by_contra hne
      have hb := hbelow_root h0 (by rw [hsplit]; simp) hne
      rw [hsplit] at hb hnodup
      exact below_not_head h0 rest Node.root hnodup hb
    subst hh0
    have hout : topoOut (mkGraph required all deps) = rest.reverse := by
      show (toposort (mkGraph required all deps)).reverse.dropLast = rest.reverse
      rw [hsplit, List.reverse_cons, List.dropLast_concat]
    have hnodup' := hnodup
    rw [hsplit, List.nodup_cons] at hnodup'
    have hmem_out : ∀ x : Name,
        Node.name x ∈ topoOut (mkGraph required all deps) ↔ x ∈ all := by
      intro x
      rw [hout, List.mem_reverse]
      rw [← hname_mem x, ← hmemiff, hsplit]
      simp only [List.mem_cons]
      constructor
      · exact .inr
      · rintro (h | h)
        · cases h
        · exact h
    refine ⟨all, hall, hreq, hclosed, ?_, ?_, hmem_out, ?_⟩
    · rw [hout, List.mem_reverse]
      exact hnodup'.1
    · rw [hout]
      exact List.nodup_reverse.mpr hnodup'.2
    · intro x y hx hre
      have hxall : x ∈ all := (hmem_out x).mp hx
      have hyall : y ∈ all := reaches_mem_closed deps all hclosed x y hxall hre
      refine ⟨(hmem_out y).mpr hyall, ?_⟩
      have hb := hreaches_below x y hxall hre
      rw [hsplit] at hb
      have hb2 : Below (Node.root :: rest) (Node.name x) (Node.name y) := hb
      have hb3 := below_tail Node.root rest (Node.name x) (Node.name y) hb2 (by simp)
      rw [hout]
      exact below_reverse rest (Node.name x) (Node.name y) hb3

/-! Claim-level results for resolution ordering and cycle errors. -/

theorem singletonDeps_support (b : Broker) :
    ∀ x, b.singletonDeps x ≠ [] → x ∈ b.singletons.map Prod.fst := by
  intro x h
  by_contra hmem
  rw [Broker.singletonDeps, lookupA_not_mem_none b.singletons x hmem] at h
  simp at h

theorem actionDeps_support (b : Broker) :
    ∀ x, b.actionDeps x ≠ [] → x ∈ b.allActions.map Prod.fst := by
  intro x h
  by_contra hmem
  rw [Broker.actionDeps, lookupA_not_mem_none b.allActions x hmem] at h
  simp at h

theorem sortSingletons_eq_of_ok (b : Broker) (required all : List Name)
    (hall : runGetDeps b.singletonDeps (b.singletons.length + 1) required
      (dedupInit required) = .ok all) :
    b.sortSingletons required = .ok (topoOut (mkGraph required all b.singletonDeps)) := by
  simp only [Broker.sortSingletons, hall]

theorem sortSingletons_eq_of_cycle (b : Broker) (required chain : List Name)
    (h : runGetDeps b.singletonDeps (b.singletons.length + 1) required
      (dedupInit required) = .error (.cycle chain)) :
    b.sortSingletons required =
      .error ("Found singletons circular dependency: " ++ joinArrow chain) := by
  simp only [Broker.sortSingletons, h]

theorem sortActions_eq_of_ok (b : Broker) (required all : List Name)
    (singletons : List Node)
    (hall : runGetDeps b.actionDeps (b.allActions.length + 1) required
      (dedupInit required) = .ok all)
    (hchk : checkIncluded b singletons all = .ok ()) :
    b.sortActions required singletons =
      .ok (topoOut (mkGraph required all b.actionDeps)) := by
  simp only [Broker.sortActions, hall, hchk]

theorem sortActions_eq_of_cycle (b : Broker) (required chain : List Name)
    (singletons : List Node)
    (h : runGetDeps b.actionDeps (b.allActions.length + 1) required
      (dedupInit required) = .error (.cycle chain)) :
    b.sortActions required singletons =
      .error ("Found actions circular dependency: " ++ joinArrow chain) := by
  simp only [Broker.sortActions, h]

theorem chain_rank (deps : Name → List Name) (rank : Name → Nat)
    (h : ∀ x, ∀ y ∈ deps x, rank y < rank x) :
    ∀ (m : List Name) (a : Name), isChainB deps (a :: m) = true →
      ∀ z ∈ m, rank z < rank a := by
  intro m
  induction m with
  | nil => intro a _ z hz; cases hz
  | cons h0 m ih =>
    intro a hchain z hz
    rw [isChainB_cons_cons] at hchain
    rcases List.mem_cons.mp hz with rfl | hz
    · exact h a z hchain.1
    · exact Nat.lt_trans (ih h0 hchain.2 z hz) (h a h0 hchain.1)

/-- A rank function decreasing along edges certifies acyclicity. -/
theorem acyclic_of_rank (deps : Name → List Name) (rank : Name → Nat)
    (h : ∀ x, ∀ y ∈ deps x, rank y < rank x) : Acyclic deps := by
  intro x l
  by_contra hc
  rw [Bool.not_eq_false] at hc
  have := chain_rank deps rank h (l ++ [x]) x hc x (by simp)
  omega

theorem bAcy_acyclicS : Acyclic bAcy.singletonDeps := by
  refine acyclic_of_rank _ (fun n => if n = "a1" then 1 else 0) ?_
  intro x y hy
  by_cases h1 : x = "a1"
  · subst h1
    simp [Broker.singletonDeps, bAcy, lookupA] at hy
    subst hy
    simp
  · by_cases h2 : x = "b1"
    · subst h2
      simp [Broker.singletonDeps, bAcy, lookupA] at hy
    · simp [Broker.singletonDeps, bAcy, lookupA, h1, h2] at hy

theorem bAcy_acyclicA : Acyclic bAcy.actionDeps := by
  refine acyclic_of_rank _ (fun n => if n = "p1" then 1 else 0) ?_
  intro x y hy
  by_cases h1 : x = "p1"
  · subst h1
    simp [Broker.actionDeps, Broker.allActions, bAcy, lookupA] at hy
    subst hy
    simp
  · by_cases h2 : x = "q1"
    · subst h2
      simp [Broker.actionDeps, Broker.allActions, bAcy, lookupA] at hy
    · simp [Broker.actionDeps, Broker.allActions, bAcy, lookupA, h1, h2] at hy

/-- C1: on an acyclic dependency graph, sortSingletons and sortActions
succeed and return an ordered sequence that excludes the synthetic root, in
which every required name occurs and every name occurs strictly after each of
its transitive dependencies (for sortActions, under the singleton-presence
pre-check passing on the accumulated closure). -/
theorem c1_resolution_order (b : Broker)
    (hacS : Acyclic b.singletonDeps) (hacA : Acyclic b.actionDeps)
    (requiredS requiredA : List Name) (singletons : List Node)
    (hchk : checkIncluded b singletons
      (depClosure b.actionDeps (b.allActions.length + 1) requiredA) = .ok ()) :
    (∃ out, b.sortSingletons requiredS = .ok out ∧
      Node.root ∉ out ∧ out.Nodup ∧
      (∀ r ∈ requiredS, Node.name r ∈ out) ∧
      (∀ x y, Node.name x ∈ out → Reaches b.singletonDeps x y →
        Node.name y ∈ out ∧ Below out (Node.name y) (Node.name x))) ∧
    (∃ out, b.sortActions requiredA singletons = .ok out ∧
      Node.root ∉ out ∧ out.Nodup ∧
      (∀ r ∈ requiredA, Node.name r ∈ out) ∧
      (∀ x y, Node.name x ∈ out → Reaches b.actionDeps x y →
        Node.name y ∈ out ∧ Below out (Node.name y) (Node.name x))) := by
  constructor
  · obtain ⟨all, hall, hreq, _, hroot, hnd, hmem, hord⟩ :=
      sortCore_spec b.singletonDeps (b.singletons.map Prod.fst)
        (singletonDeps_support b) (b.singletons.length + 1) (by simp) hacS requiredS
    refine ⟨topoOut (mkGraph requiredS all b.singletonDeps),
      sortSingletons_eq_of_ok b requiredS all hall, hroot, hnd, ?_, hord⟩
    intro r hr
    exact (hmem r).mpr (hreq r hr)
  · obtain ⟨all, hall, hreq, _, hroot, hnd, hmem, hord⟩ :=
      sortCore_spec b.actionDeps (b.allActions.map Prod.fst)
        (actionDeps_support b) (b.allActions.length + 1) (by simp) hacA requiredA
    have hclo : depClosure b.actionDeps (b.allActions.length + 1) requiredA = all := by
      simp only [depClosure, hall]
    rw [hclo] at hchk
    refine ⟨topoOut (mkGraph requiredA all b.actionDeps),
      sortActions_eq_of_ok b requiredA all singletons hall hchk, hroot, hnd, ?_, hord⟩
    intro r hr
    exact (hmem r).mpr (hreq r hr)

/-- Witness for C1 at the concrete registry bAcy, required singleton a1 and
required action p1. -/
theorem c1_resolution_order_witness :
    Acyclic bAcy.singletonDeps ∧ Acyclic bAcy.actionDeps ∧
    checkIncluded bAcy []
      (depClosure bAcy.actionDeps (bAcy.allActions.length + 1) ["p1"]) = .ok () ∧
    ((∃ out, bAcy.sortSingletons ["a1"] = .ok out ∧
      Node.root ∉ out ∧ out.Nodup ∧
      (∀ r ∈ ["a1"], Node.name r ∈ out) ∧
      (∀ x y, Node.name x ∈ out → Reaches bAcy.singletonDeps x y →
        Node.name y ∈ out ∧ Below out (Node.name y) (Node.name x))) ∧
    (∃ out, bAcy.sortActions ["p1"] [] = .ok out ∧
      Node.root ∉ out ∧ out.Nodup ∧
      (∀ r ∈ ["p1"], Node.name r ∈ out) ∧
      (∀ x y, Node.name x ∈ out → Reaches bAcy.actionDeps x y →
        Node.name y ∈ out ∧ Below out (Node.name y) (Node.name x)))) :=
  ⟨bAcy_acyclicS, bAcy_acyclicA, by decide,
    c1_resolution_order bAcy bAcy_acyclicS bAcy_acyclicA ["a1"] ["p1"] [] (by decide)⟩

theorem updF_same {α : Type} (m : Name → α) (k : Name) (v : α) :
    updF m k v k = v := by simp [updF]

/-- A startService call whose resolution stage fails returns that error and
leaves the singleton states, action states and the event log untouched; only
the service's isRunning flag (and, past a successful sortSingletons, its
cached singleton order) has been committed. -/
theorem startService_resError (b : Broker) (st : BState) (nm : Name)
    (svc : ServiceDef) (e : String)
    (hsvc : lookupA b.services nm = some svc)
    (hr : (st.srv nm).isRunning = false)
    (he : (b.sortSingletons svc.singletons = .error e) ∨
      (∃ so, b.sortSingletons svc.singletons = .ok so ∧
        b.sortActions
          (svc.actions ++ svc.localActions.map (fun p => nm ++ "#" ++ p.1))
          so = .error e)) :
    (startService b st nm).2 = .error e ∧
    (startService b st nm).1.sing = st.sing ∧
    (startService b st nm).1.act = st.act ∧
    (startService b st nm).1.log = st.log ∧
    ((startService b st nm).1.srv nm).isRunning = true := by
  rcases he with he | ⟨so, hs, ha⟩
  · simp [startService, hsvc, hr, he, updF]
  · simp [startService, hsvc, hr, hs, ha, updF]

/-- C2 (amended): a cycle reachable from a required root makes resolution
fail in the getDependencies stage, before the topological sort, with a
message enumerating a genuine dependency chain that walks into the cycle,
around it, and one dependency further (so its second-to-last element repeats
an earlier element); a startService call hitting such an error starts no
singleton and composes no action. -/
theorem c2_cycle_error (b : Broker) :
    (∀ (requiredS : List Name) (r : Name), r ∈ requiredS →
      CycleReachable b.singletonDeps r →
      ∃ chain,
        runGetDeps b.singletonDeps (b.singletons.length + 1) requiredS
          (dedupInit requiredS) = .error (.cycle chain) ∧
        b.sortSingletons requiredS =
          .error ("Found singletons circular dependency: " ++ joinArrow chain) ∧
        isChainB b.singletonDeps chain = true ∧
        (∃ pre x d, chain = pre ++ [x, d] ∧ x ∈ pre) ∧
        (∀ (st : BState) (nm : Name) (svc : ServiceDef),
          lookupA b.services nm = some svc → svc.singletons = requiredS →
          (st.srv nm).isRunning = false →
          (startService b st nm).2 =
            .error ("Found singletons circular dependency: " ++ joinArrow chain) ∧
          (startService b st nm).1.sing = st.sing ∧
          (startService b st nm).1.act = st.act ∧
          (startService b st nm).1.log = st.log)) ∧
    (∀ (requiredA : List Name) (singletons : List Node) (r : Name),
      r ∈ requiredA → CycleReachable b.actionDeps r →
      ∃ chain,
        runGetDeps b.actionDeps (b.allActions.length + 1) requiredA
          (dedupInit requiredA) = .error (.cycle chain) ∧
        b.sortActions requiredA singletons =
          .error ("Found actions circular dependency: " ++ joinArrow chain) ∧
        isChainB b.actionDeps chain = true ∧
        (∃ pre x d, chain = pre ++ [x, d] ∧ x ∈ pre) ∧
        (∀ (st : BState) (nm : Name) (svc : ServiceDef) (so : List Node),
          lookupA b.services nm = some svc →
          b.sortSingletons svc.singletons = .ok so →
          svc.actions ++ svc.localActions.map (fun p => nm ++ "#" ++ p.1) = requiredA →
          singletons = so →
          (st.srv nm).isRunning = false →
          (startService b st nm).2 =
            .error ("Found actions circular dependency: " ++ joinArrow chain) ∧
          (startService b st nm).1.sing = st.sing ∧
          (startService b st nm).1.act = st.act ∧
          (startService b st nm).1.log = st.log)) := by
  constructor
  · intro requiredS r hr hcyc
    obtain ⟨chain, hrun, hchain, hstruct⟩ :=
      runGetDeps_cycle b.singletonDeps (b.singletons.map Prod.fst)
        (singletonDeps_support b) (b.singletons.length + 1) (by simp)
        requiredS (dedupInit requiredS) r hr hcyc
    have hmsg := sortSingletons_eq_of_cycle b requiredS chain hrun
    refine ⟨chain, hrun, hmsg, hchain, hstruct, ?_⟩
    intro st nm svc hsvc hss hrn
    have h :=
      startService_resError b st nm svc _ hsvc hrn (.inl (by rw [hss]; exact hmsg))
    exact ⟨h.1, h.2.1, h.2.2.1, h.2.2.2.1⟩
  · intro requiredA singletons r hr hcyc
    obtain ⟨chain, hrun, hchain, hstruct⟩ :=
      runGetDeps_cycle b.actionDeps (b.allActions.map Prod.fst)
        (actionDeps_support b) (b.allActions.length + 1) (by simp)
        requiredA (dedupInit requiredA) r hr hcyc
    have hmsg := sortActions_eq_of_cycle b requiredA chain singletons hrun
    refine ⟨chain, hrun, hmsg, hchain, hstruct, ?_⟩
    intro st nm svc so hsvc hss hacts hsing hrn
    have hmsg' := sortActions_eq_of_cycle b requiredA chain so hrun
    have h := startService_resError b st nm svc _ hsvc hrn
      (.inr ⟨so, hss, by rw [hacts]; exact hmsg'⟩)
    exact ⟨h.1, h.2.1, h.2.2.1, h.2.2.2.1⟩

/-- Counterexample for C2 as stated: for the cycle A -> B -> C -> A the
message walks one step past the cycle (ending in "-> B"), so it is not the
exact cycle chain of the claim's example. -/
theorem c2_cycle_error_counterexample :
    bCyc.sortSingletons ["A"] =
      .error "Found singletons circular dependency: A -> B -> C -> A -> B" ∧
    ("Found singletons circular dependency: A -> B -> C -> A -> B" ≠
      "Found singletons circular dependency: A -> B -> C -> A") := by
  constructor
  · decide
  · decide

/-- Witness for C2 at bCyc: the singleton cycle A -> B -> C -> A and the
self-looping action aX. -/
theorem c2_cycle_error_witness :
    CycleReachable bCyc.singletonDeps "A" ∧
    CycleReachable bCyc.actionDeps "aX" ∧
    (∃ chain,
      runGetDeps bCyc.singletonDeps (bCyc.singletons.length + 1) ["A"]
        (dedupInit ["A"]) = .error (.cycle chain) ∧
      bCyc.sortSingletons ["A"] =
        .error ("Found singletons circular dependency: " ++ joinArrow chain) ∧
      isChainB bCyc.singletonDeps chain = true ∧
      (∃ pre x d, chain = pre ++ [x, d] ∧ x ∈ pre) ∧
      (∀ (st : BState) (nm : Name) (svc : ServiceDef),
        lookupA bCyc.services nm = some svc → svc.singletons = ["A"] →
        (st.srv nm).isRunning = false →
        (startService bCyc st nm).2 =
          .error ("Found singletons circular dependency: " ++ joinArrow chain) ∧
        (startService bCyc st nm).1.sing = st.sing ∧
        (startService bCyc st nm).1.act = st.act ∧
        (startService bCyc st nm).1.log = st.log)) ∧
    (∃ chain,
      runGetDeps bCyc.actionDeps (bCyc.allActions.length + 1) ["aX"]
        (dedupInit ["aX"]) = .error (.cycle chain) ∧
      bCyc.sortActions ["aX"] [] =
        .error ("Found actions circular dependency: " ++ joinArrow chain) ∧
      isChainB bCyc.actionDeps chain = true ∧
      (∃ pre x d, chain = pre ++ [x, d] ∧ x ∈ pre) ∧
      (∀ (st : BState) (nm : Name) (svc : ServiceDef) (so : List Node),
        lookupA bCyc.services nm = some svc →
        bCyc.sortSingletons svc.singletons = .ok so →
        svc.actions ++ svc.localActions.map (fun p => nm ++ "#" ++ p.1) = ["aX"] →
        ([] : List Node) = so →
        (st.srv nm).isRunning = false →
        (startService bCyc st nm).2 =
          .error ("Found actions circular dependency: " ++ joinArrow chain) ∧
        (startService bCyc st nm).1.sing = st.sing ∧
        (startService bCyc st nm).1.act = st.act ∧
        (startService bCyc st nm).1.log = st.log)) :=
  ⟨⟨"A", ["B", "C"], by decide, .inl rfl⟩,
   ⟨"aX", [], by decide, .inl rfl⟩,
   (c2_cycle_error bCyc).1 ["A"] "A" (by decide) ⟨"A", ["B", "C"], by decide, .inl rfl⟩,
   (c2_cycle_error bCyc).2 ["aX"] [] "aX" (by decide) ⟨"aX", [], by decide, .inl rfl⟩⟩

/-! stopService: teardown loop, implicit reference counting, and the
selective-stop specification. -/

theorem stopLoop_spec (b : Broker) :
    ∀ (xs : List Node) (st : BState),
      (∀ x ∈ xs, goodNode b x = true) →
      (stopSingletonsLoop b st xs).2 = .ok () ∧
      (stopSingletonsLoop b st xs).1.log =
        st.log ++ xs.map (fun x => Event.stopSing (nodeStr x)) ∧
      (stopSingletonsLoop b st xs).1.act = st.act ∧
      (stopSingletonsLoop b st xs).1.srv = st.srv ∧
      (∀ s : Name, (stopSingletonsLoop b st xs).1.sing s =
        if Node.name s ∈ xs then { st.sing s with started := false }
        else st.sing s) := by
  intro xs
  induction xs with
  | nil =>
    intro st _
    refine ⟨rfl, by simp [stopSingletonsLoop], rfl, rfl, ?_⟩
    intro s
    simp [stopSingletonsLoop]
  | cons x rest ih =>
    intro st hgood
    cases x with
    | root => exact absurd (hgood .root (by simp)) (by simp [goodNode])
    | name s0 =>
      have hx := hgood (.name s0) (by simp)
      obtain ⟨sdef, hsd⟩ := Option.isSome_iff_exists.mp hx
      have hstep : stopSingletonsLoop b st (Node.name s0 :: rest) =
          stopSingletonsLoop b
            { st with sing := updF st.sing s0 { st.sing s0 with started := false },
                      log := st.log ++ [.stopSing s0] } rest := by
        simp [stopSingletonsLoop, hsd]
      rw [hstep]
      obtain ⟨g1, g2, g3, g4, g5⟩ := ih
        { st with sing := updF st.sing s0 { st.sing s0 with started := false },
                  log := st.log ++ [.stopSing s0] }
        (fun x hxx => hgood x (by simp [hxx]))
      refine ⟨g1, ?_, g3, g4, ?_⟩
      · rw [g2]; simp [nodeStr]
      · intro s
        rw [g5 s]
        by_cases hss : s = s0
        · subst hss
          by_cases hmem : Node.name s ∈ rest <;> simp [hmem, updF]
        · have hne : (Node.name s = Node.name s0) = False := by simp [hss]
          by_cases hmem : Node.name s ∈ rest <;> simp [hmem, hss, hne, updF]

theorem collectStarted_spec (st : BState) :
    ∀ (names : List Name) (acc : List Node),
      (∀ s ∈ names, ((st.srv s).depSingletons).isSome = true) →
      ∃ res, collectStarted st names acc = .ok res ∧
        (∀ x, x ∈ res ↔ x ∈ acc ∨ ∃ s ∈ names, ∃ l,
          (st.srv s).depSingletons = some l ∧ x ∈ l) := by
  intro names
  induction names with
  | nil =>
    intro acc _
    exact ⟨acc, rfl, by simp⟩
  | cons s0 rest ih =>
    intro acc hsome
    obtain ⟨l0, hl0⟩ := Option.isSome_iff_exists.mp (hsome s0 (by simp))
    have hstep : collectStarted st (s0 :: rest) acc =
        collectStarted st rest (acc ++ l0.filter (fun x => ¬ x ∈ acc)) := by
      simp [collectStarted, hl0]
    rw [hstep]
    obtain ⟨res, hres, hchar⟩ := ih _ (fun s hs => hsome s (by simp [hs]))
    refine ⟨res, hres, ?_⟩
    intro x
    rw [hchar x]
    simp only [List.mem_append, List.mem_filter, decide_eq_true_eq]
    constructor
    · rintro ((hx | ⟨hx, _⟩) | ⟨s, hs, l, hsl, hx⟩)
      · exact .inl hx
      · exact .inr ⟨s0, by simp, l0, hl0, hx⟩
      · exact .inr ⟨s, by simp [hs], l, hsl, hx⟩
    · rintro (hx | ⟨s, hs, l, hsl, hx⟩)
      · exact .inl (.inl hx)
      · rcases List.mem_cons.mp hs with rfl | hs
        · rw [hl0] at hsl
          injection hsl with he
          subst he
          by_cases hxa : x ∈ acc
          · exact .inl (.inl hxa)
          · exact .inl (.inr ⟨hx, hxa⟩)
        · exact .inr ⟨s, hs, l, hsl, hx⟩

/-- Full specification of a stopService call on a running service with a
cached singleton order: it succeeds, clears isRunning, and invokes the stop
routine of exactly those entries of the cached order that no other running
service lists, in the cached order. -/
theorem stopService_spec (b : Broker) (st : BState) (nm : Name)
    (svc : ServiceDef) (depList : List Node)
    (hsvc : lookupA b.services nm = some svc)
    (hrun : (st.srv nm).isRunning = true)
    (hdep : (st.srv nm).depSingletons = some depList)
    (hgood : ∀ x ∈ depList, goodNode b x = true)
    (hothers : ∀ s ∈ b.services.map Prod.fst, s ≠ nm →
      (st.srv s).isRunning = true → ((st.srv s).depSingletons).isSome = true) :
    (stopService b st nm).2 = .ok () ∧
    ((stopService b st nm).1.srv nm).isRunning = false ∧
    (stopService b st nm).1.act = st.act ∧
    (∃ pre, (stopService b st nm).1.log = (st.log ++ pre) ++
      (depList.filter (fun x => !keptByOthersB b st nm x)).map
        (fun x => Event.stopSing (nodeStr x)) ∧
      (∀ e ∈ pre, ∀ s : Name, e ≠ Event.stopSing s)) ∧
    (∀ s : Name, (stopService b st nm).1.sing s =
      if Node.name s ∈ depList.filter (fun x => !keptByOthersB b st nm x)
      then { st.sing s with started := false } else st.sing s) := by
  set st1 := if svc.hasStopHandler
    then { st with log := st.log ++ [Event.serviceStopHandler nm] } else st with hst1
  have h1srv : st1.srv = st.srv := by
    rw [hst1]; by_cases h : svc.hasStopHandler <;> simp [h]
  have h1sing : st1.sing = st.sing := by
    rw [hst1]; by_cases h : svc.hasStopHandler <;> simp [h]
  have h1act : st1.act = st.act := by
    rw [hst1]; by_cases h : svc.hasStopHandler <;> simp [h]
  obtain ⟨pre, h1log, h1pre⟩ : ∃ pre, st1.log = st.log ++ pre ∧
      (∀ e ∈ pre, ∀ s : Name, e ≠ Event.stopSing s) := by
    rw [hst1]
    by_cases h : svc.hasStopHandler
    · exact ⟨[Event.serviceStopHandler nm], by simp [h], by simp⟩
    · exact ⟨[], by simp [h], by simp⟩
  set running := (getRunningServices b st1).filter (fun s => ¬ s = nm) with hrunning
  have hrsmem : ∀ s, s ∈ running ↔
      s ∈ b.services.map Prod.fst ∧ (st.srv s).isRunning = true ∧ s ≠ nm := by
    intro s
    rw [hrunning, List.mem_filter]
    simp only [getRunningServices, List.mem_filter, h1srv, decide_eq_true_eq]
    tauto
  obtain ⟨res, hres, hchar⟩ := collectStarted_spec st1 running []
    (by
      intro s hs
      rw [h1srv]
      obtain ⟨h1, h2, h3⟩ := (hrsmem s).mp hs
      exact hothers s h1 h3 h2)
  have hkept : ∀ x, x ∈ res ↔ keptByOthersB b st nm x = true := by
    intro x
    rw [hchar x]
    simp only [List.not_mem_nil, false_or, h1srv]
    rw [keptByOthersB, List.any_eq_true]
    constructor
    · rintro ⟨s, hs, l, hsl, hx⟩
      obtain ⟨h1, h2, h3⟩ := (hrsmem s).mp hs
      refine ⟨s, h1, ?_⟩
      rw [Bool.and_eq_true, Bool.and_eq_true]
      refine ⟨⟨by simp [h3], h2⟩, ?_⟩
      rw [hsl]
      simp [hx]
    · rintro ⟨s, hs, hcond⟩
      rw [Bool.and_eq_true, Bool.and_eq_true] at hcond
      obtain ⟨⟨hne, hrn⟩, hmatch⟩ := hcond
      have hne' : s ≠ nm := by simpa using hne
      cases hdl : (st.srv s).depSingletons with
      | none => rw [hdl] at hmatch; simp at hmatch
      | some l =>
        rw [hdl] at hmatch
        simp at hmatch
        exact ⟨s, (hrsmem s).mpr ⟨hs, hrn, hne'⟩, l, hdl, hmatch⟩
  have hfilter : depList.filter (fun x => ¬ x ∈ res) =
      depList.filter (fun x => !keptByOthersB b st nm x) := by
    refine List.filter_congr ?_
    intro x _
    cases hk : keptByOthersB b st nm x
    · have : x ∉ res := fun hx => by rw [(hkept x).mp hx] at hk; cases hk
      simp [this]
    · have : x ∈ res := (hkept x).mpr hk
      simp [this]
  have hunfold : stopService b st nm =
      match stopSingletonsLoop b st1
        (depList.filter (fun x => ¬ x ∈ res)) with
      | (st2, .error e) => (st2, .error e)
      | (st2, .ok _) =>
        ({ st2 with srv := updF st2.srv nm { st2.srv nm with isRunning := false } },
          .ok ()) := by
    rw [stopService, hsvc]
    simp only [hrun]
    rw [if_neg (by simp)]
    rw [← hst1, ← hrunning, hres]
    rw [show st1.srv nm = st.srv nm from by rw [h1srv], hdep]
  obtain ⟨g1, g2, g3, g4, g5⟩ := stopLoop_spec b
    (depList.filter (fun x => ¬ x ∈ res)) st1
    (by
      intro x hx
      exact hgood x (List.mem_of_mem_filter hx))
  rcases hloop : stopSingletonsLoop b st1 (depList.filter (fun x => ¬ x ∈ res)) with
    ⟨st2, r2⟩
  rw [hloop] at g1 g2 g3 g4 g5
  simp only at g1 g2 g3 g4 g5
  cases r2 with
  | error e => cases g1
  | ok u =>
    cases u
    rw [hunfold, hloop]
    refine ⟨rfl, ?_, ?_, ?_, ?_⟩
    · show (updF st2.srv nm { st2.srv nm with isRunning := false } nm).isRunning = false
      rw [updF_same]
    · show st2.act = st.act
      rw [g3, h1act]
    · refine ⟨pre, ?_, h1pre⟩
      show st2.log = (st.log ++ pre) ++
        (depList.filter (fun x => !keptByOthersB b st nm x)).map
          (fun x => Event.stopSing (nodeStr x))
      rw [g2, h1log, hfilter]
    · intro s
      show st2.sing s = _
      rw [g5 s, hfilter, h1sing]

/-- C3: stopService stops a singleton of the stopped service's cached
resolved list — invoking its stop routine (a stopSing event is appended) and
clearing its started flag — if and only if no other currently-running
service lists it among its cached resolved singleton dependencies; every
other singleton entry is left untouched. -/
theorem c3_stop_iff (b : Broker) (st : BState) (nm : Name)
    (svc : ServiceDef) (depList : List Node)
    (hsvc : lookupA b.services nm = some svc)
    (hrun : (st.srv nm).isRunning = true)
    (hdep : (st.srv nm).depSingletons = some depList)
    (hgood : ∀ x ∈ depList, goodNode b x = true)
    (hothers : ∀ s ∈ b.services.map Prod.fst, s ≠ nm →
      (st.srv s).isRunning = true → ((st.srv s).depSingletons).isSome = true) :
    (stopService b st nm).2 = .ok () ∧
    ((stopService b st nm).1.srv nm).isRunning = false ∧
    (∃ Δ, (stopService b st nm).1.log = st.log ++ Δ ∧
      ∀ s : Name, (Event.stopSing s ∈ Δ ↔
        Node.name s ∈ depList ∧ keptByOthersB b st nm (Node.name s) = false)) ∧
    (∀ s : Name, Node.name s ∈ depList →
      keptByOthersB b st nm (Node.name s) = false →
      (stopService b st nm).1.sing s = { st.sing s with started := false }) ∧
    (∀ s : Name, ¬ (Node.name s ∈ depList ∧
        keptByOthersB b st nm (Node.name s) = false) →
      (stopService b st nm).1.sing s = st.sing s) := by
  obtain ⟨h1, h2, _, ⟨pre, hlog, hpre⟩, hsing⟩ :=
    stopService_spec b st nm svc depList hsvc hrun hdep hgood hothers
  refine ⟨h1, h2, ?_, ?_, ?_⟩
  · refine ⟨pre ++ (depList.filter (fun x => !keptByOthersB b st nm x)).map
      (fun x => Event.stopSing (nodeStr x)), by rw [hlog]; simp, ?_⟩
    intro s
    rw [List.mem_append]
    constructor
    · rintro (h | h)
      · exact absurd rfl (hpre _ h s)
      · rw [List.mem_map] at h
        obtain ⟨x, hx, he⟩ := h
        rw [List.mem_filter] at hx
        cases x with
        | root => exact absurd (hgood _ hx.1) (by simp [goodNode])
        | name t =>
          have hts : t = s := by
            have := he
            rw [nodeStr] at this
            injection this
          subst hts
          refine ⟨hx.1, ?_⟩
          have := hx.2
          simpa using this
    · rintro ⟨hmem, hk⟩
      right
      rw [List.mem_map]
      refine ⟨Node.name s, ?_, rfl⟩
      rw [List.mem_filter]
      exact ⟨hmem, by simp [hk]⟩
  · intro s hmem hk
    rw [hsing s, if_pos]
    rw [List.mem_filter]
    exact ⟨hmem, by simp [hk]⟩
  · intro s hnk
    rw [hsing s, if_neg]
    rw [List.mem_filter]
    rintro ⟨hm, hk⟩
    exact hnk ⟨hm, by simpa using hk⟩

/-- Witness for C3: in bSvc with services A and B both running and sharing
s1 (A also holds s2), stopping A leaves s1 started (B lists it) and stops
s2; stopping B afterwards stops s1 as well. -/
theorem c3_stop_iff_witness :
    lookupA bSvc.services "A" = some { singletons := ["s2"] } ∧
    (stSharedAB.srv "A").isRunning = true ∧
    (stSharedAB.srv "A").depSingletons =
      some [Node.name "s1", Node.name "s2"] ∧
    keptByOthersB bSvc stSharedAB "A" (Node.name "s1") = true ∧
    keptByOthersB bSvc stSharedAB "A" (Node.name "s2") = false ∧
    ((stopService bSvc stSharedAB "A").1.sing "s1").started = true ∧
    ((stopService bSvc stSharedAB "A").1.sing "s2").started = false ∧
    ((stopService bSvc (stopService bSvc stSharedAB "A").1 "B").1.sing "s1").started
      = false ∧
    ((stopService bSvc stSharedAB "A").2 = .ok () ∧
      (((stopService bSvc stSharedAB "A").1.srv "A").isRunning = false) ∧
      (∃ Δ, (stopService bSvc stSharedAB "A").1.log = stSharedAB.log ++ Δ ∧
        ∀ s : Name, (Event.stopSing s ∈ Δ ↔
          Node.name s ∈ [Node.name "s1", Node.name "s2"] ∧
          keptByOthersB bSvc stSharedAB "A" (Node.name s) = false)) ∧
      (∀ s : Name, Node.name s ∈ [Node.name "s1", Node.name "s2"] →
        keptByOthersB bSvc stSharedAB "A" (Node.name s) = false →
        (stopService bSvc stSharedAB "A").1.sing s =
          { stSharedAB.sing s with started := false }) ∧
      (∀ s : Name, ¬ (Node.name s ∈ [Node.name "s1", Node.name "s2"] ∧
          keptByOthersB bSvc stSharedAB "A" (Node.name s) = false) →
        (stopService bSvc stSharedAB "A").1.sing s = stSharedAB.sing s)) :=
  ⟨rfl, by decide, by decide, by decide, by decide, by decide, by decide, by decide,
    c3_stop_iff bSvc stSharedAB "A" { singletons := ["s2"] }
      [Node.name "s1", Node.name "s2"] rfl (by decide) (by decide) (by decide)
      (by decide)⟩

theorem getLast?_mem_self {α : Type} :
    ∀ (l : List α) (a : α), l.getLast? = some a → a ∈ l := by
  intro l
  induction l with
  | nil => intro a h; cases h
  | cons x t ih =>
    intro a h
    cases t with
    | nil =>
      rw [List.getLast?_singleton] at h
      injection h with h
      rw [← h]
      simp
    | cons y t' =>
      rw [List.getLast?_cons_cons] at h
      exact List.mem_cons.mpr (.inr (ih a h))

theorem ne_reverse_of_nodup {α : Type} (l : List α) (hnd : l.Nodup)
    (hlen : 1 < l.length) : l ≠ l.reverse := by
  intro heq
  cases l with
  | nil => simp at hlen
  | cons a t =>
    cases t with
    | nil => simp at hlen
    | cons b t' =>
      have h1 : (b :: t').getLast? = some a := by
        have h2 := congrArg List.getLast? heq
        rw [List.getLast?_cons_cons] at h2
        rw [List.reverse_cons, List.getLast?_concat] at h2
        exact h2
      have h3 : a ∈ b :: t' := getLast?_mem_self _ a h1
      rw [List.nodup_cons] at hnd
      exact hnd.1 h3

/-- C9: the teardown loop of stopService processes exactly the stoppable
entries of the service's cached resolved singleton order, in that cached
order (dependencies before dependents); whenever two or more distinct
singletons are stopped this order is not the reverse of the startup order. -/
theorem c9_teardown_order (b : Broker) (st : BState) (nm : Name)
    (svc : ServiceDef) (depList : List Node)
    (hsvc : lookupA b.services nm = some svc)
    (hrun : (st.srv nm).isRunning = true)
    (hdep : (st.srv nm).depSingletons = some depList)
    (hgood : ∀ x ∈ depList, goodNode b x = true)
    (hothers : ∀ s ∈ b.services.map Prod.fst, s ≠ nm →
      (st.srv s).isRunning = true → ((st.srv s).depSingletons).isSome = true) :
    (stopService b st nm).2 = .ok () ∧
    (∃ pre, (stopService b st nm).1.log = (st.log ++ pre) ++
      (depList.filter (fun x => !keptByOthersB b st nm x)).map
        (fun x => Event.stopSing (nodeStr x)) ∧
      (∀ e ∈ pre, ∀ s : Name, e ≠ Event.stopSing s)) ∧
    ((depList.filter (fun x => !keptByOthersB b st nm x)).Nodup →
      1 < (depList.filter (fun x => !keptByOthersB b st nm x)).length →
      depList.filter (fun x => !keptByOthersB b st nm x) ≠
        (depList.filter (fun x => !keptByOthersB b st nm x)).reverse) := by
  obtain ⟨h1, _, _, hlog, _⟩ :=
    stopService_spec b st nm svc depList hsvc hrun hdep hgood hothers
  exact ⟨h1, hlog, fun hnd hlen => ne_reverse_of_nodup _ hnd hlen⟩

/-- Witness for C9: in bSvc with only A running (after B was stopped),
stopping A tears down s1 then s2 — the cached startup order, not its
reverse. -/
theorem c9_teardown_order_witness :
    lookupA bSvc.services "A" = some { singletons := ["s2"] } ∧
    (stOnlyA.srv "A").isRunning = true ∧
    (stOnlyA.srv "A").depSingletons = some [Node.name "s1", Node.name "s2"] ∧
    ([Node.name "s1", Node.name "s2"].filter
      (fun x => !keptByOthersB bSvc stOnlyA "A" x)) =
      [Node.name "s1", Node.name "s2"] ∧
    ((stopService bSvc stOnlyA "A").2 = .ok () ∧
      (∃ pre, (stopService bSvc stOnlyA "A").1.log = (stOnlyA.log ++ pre) ++
        ([Node.name "s1", Node.name "s2"].filter
          (fun x => !keptByOthersB bSvc stOnlyA "A" x)).map
          (fun x => Event.stopSing (nodeStr x)) ∧
        (∀ e ∈ pre, ∀ s : Name, e ≠ Event.stopSing s)) ∧
      (([Node.name "s1", Node.name "s2"].filter
          (fun x => !keptByOthersB bSvc stOnlyA "A" x)).Nodup →
        1 < ([Node.name "s1", Node.name "s2"].filter
          (fun x => !keptByOthersB bSvc stOnlyA "A" x)).length →
        [Node.name "s1", Node.name "s2"].filter
          (fun x => !keptByOthersB bSvc stOnlyA "A" x) ≠
          ([Node.name "s1", Node.name "s2"].filter
            (fun x => !keptByOthersB bSvc stOnlyA "A" x)).reverse)) :=
  ⟨rfl, by decide, by decide, by decide,
    c9_teardown_order bSvc stOnlyA "A" { singletons := ["s2"] }
      [Node.name "s1", Node.name "s2"] rfl (by decide) (by decide) (by decide)
      (by decide)⟩

/-! C4: the at-most-once start invariant over arbitrary operation sequences,
and memoization of instances on the registry entry. -/

theorem logOk_append (nm : Name) :
    ∀ (l1 l2 : List Event) (b : Bool),
      logOk nm (l1 ++ l2) b =
        (logOk nm l1 b && logOk nm l2 (startedAfter nm l1 b)) := by
  intro l1
  induction l1 with
  | nil => intro l2 b; simp [logOk, startedAfter]
  | cons e l1 ih =>
    intro l2 b
    cases e with
    | startSing s =>
      by_cases hs : s = nm
      · simp [logOk, startedAfter, hs, ih, Bool.and_assoc]
      · simp [logOk, startedAfter, hs, ih]
    | stopSing s =>
      by_cases hs : s = nm <;> simp [logOk, startedAfter, hs, ih]
    | composeAct s => simp [logOk, startedAfter, ih]
    | serviceStart s => simp [logOk, startedAfter, ih]
    | serviceStopHandler s => simp [logOk, startedAfter, ih]

theorem startedAfter_append (nm : Name) :
    ∀ (l1 l2 : List Event) (b : Bool),
      startedAfter nm (l1 ++ l2) b = startedAfter nm l2 (startedAfter nm l1 b) := by
  intro l1
  induction l1 with
  | nil => intro l2 b; simp [startedAfter]
  | cons e l1 ih =>
    intro l2 b
    cases e <;> simp [startedAfter, ih]

theorem invC4_init : InvC4 initState := by
  intro nm
  exact ⟨rfl, rfl⟩

theorem invC4_log_neutral (st : BState) (h : InvC4 st) (e : Event)
    (hne : ∀ s : Name, e ≠ .startSing s ∧ e ≠ .stopSing s) :
    InvC4 { st with log := st.log ++ [e] } := by
  intro nm
  obtain ⟨h1, h2⟩ := h nm
  constructor
  · show logOk nm (st.log ++ [e]) false = true
    rw [logOk_append]
    simp only [h1, Bool.true_and]
    cases e with
    | startSing s => exact absurd rfl (hne s).1
    | stopSing s => exact absurd rfl (hne s).2
    | composeAct s => simp [logOk]
    | serviceStart s => simp [logOk]
    | serviceStopHandler s => simp [logOk]
  · show startedAfter nm (st.log ++ [e]) false = (st.sing nm).started
    rw [startedAfter_append, h2]
    cases e with
    | startSing s => exact absurd rfl (hne s).1
    | stopSing s => exact absurd rfl (hne s).2
    | composeAct s => simp [startedAfter]
    | serviceStart s => simp [startedAfter]
    | serviceStopHandler s => simp [startedAfter]

theorem invC4_start_step (st : BState) (h : InvC4 st) (nm : Name) (v : JSVal)
    (hfl : (st.sing nm).started = false) :
    InvC4 { st with sing := updF st.sing nm { started := true, inst := v },
                    log := st.log ++ [.startSing nm] } := by
  intro t
  obtain ⟨h1, h2⟩ := h t
  by_cases ht : t = nm
  · subst ht
    have hbase : startedAfter t st.log false = false := by rw [h2, hfl]
    constructor
    · show logOk t (st.log ++ [.startSing t]) false = true
      rw [logOk_append]
      simp only [h1, Bool.true_and]
      rw [hbase]
      simp [logOk]
    · show startedAfter t (st.log ++ [.startSing t]) false = _
      rw [startedAfter_append, hbase]
      simp [startedAfter, updF]
  · have hnt : ¬ nm = t := fun hh => ht hh.symm
    constructor
    · show logOk t (st.log ++ [.startSing nm]) false = true
      rw [logOk_append]
      simp only [h1, Bool.true_and]
      simp [logOk, hnt]
    · show startedAfter t (st.log ++ [.startSing nm]) false = _
      rw [startedAfter_append, h2]
      simp [startedAfter, updF, hnt, ht]

theorem invC4_stop_step (st : BState) (h : InvC4 st) (nm : Name) :
    InvC4 { st with sing := updF st.sing nm { st.sing nm with started := false },
                    log := st.log ++ [.stopSing nm] } := by
  intro t
  obtain ⟨h1, h2⟩ := h t
  by_cases ht : t = nm
  · subst ht
    constructor
    · show logOk t (st.log ++ [.stopSing t]) false = true
      rw [logOk_append]
      simp only [h1, Bool.true_and]
      simp [logOk]
    · show startedAfter t (st.log ++ [.stopSing t]) false = _
      rw [startedAfter_append]
      simp [startedAfter, updF]
  · have hnt : ¬ nm = t := fun hh => ht hh.symm
    constructor
    · show logOk t (st.log ++ [.stopSing nm]) false = true
      rw [logOk_append]
      simp only [h1, Bool.true_and]
      simp [logOk, hnt]
    · show startedAfter t (st.log ++ [.stopSing nm]) false = _
      rw [startedAfter_append, h2]
      simp [startedAfter, updF, hnt, ht]

theorem invC4_startSingletons (b : Broker) :
    ∀ (names : List Node) (st : BState) (result : Name → Option JSVal),
      InvC4 st → InvC4 (startSingletons b st names result).1 := by
  intro names
  induction names with
  | nil => intro st result h; exact h
  | cons x rest ih =>
    intro st result h
    cases x with
    | root => exact h
    | name nm =>
      cases hl : lookupA b.singletons nm with
      | none =>
        have hred : (startSingletons b st (Node.name nm :: rest) result).1 = st := by
          simp [startSingletons, hl]
        rw [hred]
        exact h
      | some sdef =>
        by_cases hs : (st.sing nm).started
        · have hred : startSingletons b st (Node.name nm :: rest) result =
              startSingletons b st rest (updO result nm (st.sing nm).inst) := by
            simp [startSingletons, hl, hs]
          rw [hred]
          exact ih st _ h
        · have hfl : (st.sing nm).started = false := by simpa using hs
          have hred : startSingletons b st (Node.name nm :: rest) result =
              startSingletons b
                { st with sing := updF st.sing nm ({ started := true, inst := sdef.start (sdef.singletons.foldl (fun res d => updO res d (st.sing d).inst) (fun _ => none)) }), log := st.log ++ [.startSing nm] }
                rest
                (updO result nm (sdef.start (sdef.singletons.foldl
                  (fun res d => updO res d (st.sing d).inst) (fun _ => none)))) := by
            simp [startSingletons, hl, hfl]
          rw [hred]
          exact ih _ _ (invC4_start_step st h nm _ hfl)

theorem invC4_startActions (b : Broker) :
    ∀ (names : List Node) (st : BState) (result : Name → Option JSVal),
      InvC4 st → InvC4 (startActions b st names result).1 := by
  intro names
  induction names with
  | nil => intro st result h; exact h
  | cons x rest ih =>
    intro st result h
    cases x with
    | root => exact h
    | name nm =>
      cases hl : lookupA b.allActions nm with
      | none =>
        have hred : (startActions b st (Node.name nm :: rest) result).1 = st := by
          simp [startActions, hl]
        rw [hred]
        exact h
      | some adef =>
        by_cases hs : truthy (st.act nm).initializedFn
        · have hred : startActions b st (Node.name nm :: rest) result =
              startActions b st rest
                (updO result (realName nm) (st.act nm).initializedFn) := by
            simp [startActions, hl, hs]
          rw [hred]
          exact ih st _ h
        · have hfl : truthy (st.act nm).initializedFn = false := by simpa using hs
          have hstep : InvC4 { st with act := updF st.act nm ({ initializedFn := adef.fn (adef.actions.foldl (fun res a => updO res a (st.act a).initializedFn) (fun _ => none)) (adef.singletons.foldl (fun res s => updO res s (st.sing s).inst) (fun _ => none)) }), log := st.log ++ [.composeAct nm] } := by
            exact invC4_log_neutral
              { st with act := updF st.act nm ({ initializedFn := adef.fn (adef.actions.foldl (fun res a => updO res a (st.act a).initializedFn) (fun _ => none)) (adef.singletons.foldl (fun res s => updO res s (st.sing s).inst) (fun _ => none)) }) }
              (fun t => h t) (.composeAct nm) (fun s => by simp)
          by_cases hfn : isFunctionV (adef.fn
              (adef.actions.foldl (fun res a =>
                updO res a (st.act a).initializedFn) (fun _ => none))
              (adef.singletons.foldl (fun res s =>
                updO res s (st.sing s).inst) (fun _ => none)))
          · have hred : startActions b st (Node.name nm :: rest) result =
                startActions b
                  { st with act := updF st.act nm ({ initializedFn := adef.fn (adef.actions.foldl (fun res a => updO res a (st.act a).initializedFn) (fun _ => none)) (adef.singletons.foldl (fun res s => updO res s (st.sing s).inst) (fun _ => none)) }), log := st.log ++ [.composeAct nm] }
                  rest
                  (updO result (realName nm) (adef.fn
                    (adef.actions.foldl (fun res a =>
                      updO res a (st.act a).initializedFn) (fun _ => none))
                    (adef.singletons.foldl (fun res s =>
                      updO res s (st.sing s).inst) (fun _ => none)))) := by
              simp [startActions, hl, hfl, hfn]
            rw [hred]
            exact ih _ _ hstep
          · have hred : (startActions b st (Node.name nm :: rest) result).1 =
                { st with act := updF st.act nm ({ initializedFn := adef.fn (adef.actions.foldl (fun res a => updO res a (st.act a).initializedFn) (fun _ => none)) (adef.singletons.foldl (fun res s => updO res s (st.sing s).inst) (fun _ => none)) }), log := st.log ++ [.composeAct nm] } := by
              simp [startActions, hl, hfl, hfn]
            rw [hred]
            exact hstep

theorem invC4_stopLoop (b : Broker) :
    ∀ (xs : List Node) (st : BState),
      InvC4 st → InvC4 (stopSingletonsLoop b st xs).1 := by
  intro xs
  induction xs with
  | nil => intro st h; exact h
  | cons x rest ih =>
    intro st h
    cases x with
    | root => exact h
    | name s =>
      cases hl : lookupA b.singletons s with
      | none =>
        have hred : (stopSingletonsLoop b st (Node.name s :: rest)).1 = st := by
          simp [stopSingletonsLoop, hl]
        rw [hred]
        exact h
      | some sdef =>
        have hred : stopSingletonsLoop b st (Node.name s :: rest) =
            stopSingletonsLoop b
              { st with sing := updF st.sing s { st.sing s with started := false },
                        log := st.log ++ [.stopSing s] } rest := by
          simp [stopSingletonsLoop, hl]
        rw [hred]
        exact ih _ (invC4_stop_step st h s)

theorem invC4_startService (b : Broker) (st : BState) (nm : Name)
    (h : InvC4 st) : InvC4 (startService b st nm).1 := by
  simp only [startService]
  split
  · exact h
  · split
    · exact h
    · split
      · exact fun t => h t
      · split
        · exact fun t => h t
        · split
          · rename_i st4 e heq
            rw [← congrArg Prod.fst heq]
            exact invC4_startSingletons b _ _ _ (fun t => h t)
          · rename_i st4 u heq
            have h4 : InvC4 (st4,
                (Except.ok u : Except String (Name → Option JSVal))).1 := by
              rw [← congrArg Prod.fst heq]
              exact invC4_startSingletons b _ _ _ (fun t => h t)
            split
            · rename_i st5 e heq5
              rw [← congrArg Prod.fst heq5]
              exact invC4_startActions b _ _ _ (fun t => h4 t)
            · rename_i st5 u5 heq5
              have h5 : InvC4 (st5,
                  (Except.ok u5 : Except String (Name → Option JSVal))).1 := by
                rw [← congrArg Prod.fst heq5]
                exact invC4_startActions b _ _ _ (fun t => h4 t)
              split
              · rename_i st6 e heq6
                rw [← congrArg Prod.fst heq6]
                exact invC4_startActions b _ _ _ (fun t => h5 t)
              · rename_i st6 u6 heq6
                have h6 : InvC4 (st6,
                    (Except.ok u6 : Except String (Name → Option JSVal))).1 := by
                  rw [← congrArg Prod.fst heq6]
                  exact invC4_startActions b _ _ _ (fun t => h5 t)
                exact invC4_log_neutral st6 (fun t => h6 t) (.serviceStart nm)
                  (fun s => by simp)

theorem invC4_stopService (b : Broker) (st : BState) (nm : Name)
    (h : InvC4 st) : InvC4 (stopService b st nm).1 := by
  simp only [stopService]
  split
  · exact h
  · rename_i svc heq
    split
    · exact h
    · have h1 : InvC4 (if svc.hasStopHandler
          then { st with log := st.log ++ [Event.serviceStopHandler nm] }
          else st) := by
        split
        · exact invC4_log_neutral st h (.serviceStopHandler nm) (fun s => by simp)
        · exact h
      split
      · exact fun t => h1 t
      · split
        · exact fun t => h1 t
        · split
          · rename_i st2 e heq2
            rw [← congrArg Prod.fst heq2]
            exact invC4_stopLoop b _ _ (fun t => h1 t)
          · rename_i st2 u heq2
            have h2 : InvC4 (st2, (Except.ok u : Except String Unit)).1 := by
              rw [← congrArg Prod.fst heq2]
              exact invC4_stopLoop b _ _ (fun t => h1 t)
            exact fun t => h2 t

theorem invC4_runOps (b : Broker) :
    ∀ (ops : List Op) (st : BState), InvC4 st → InvC4 (runOps b ops st) := by
  intro ops
  induction ops with
  | nil => intro st h; exact h
  | cons op rest ih =>
    intro st h
    cases op with
    | start nm => exact ih _ (invC4_startService b st nm h)
    | stop nm => exact ih _ (invC4_stopService b st nm h)

theorem startSingletons_started_spec (b : Broker) (nm : Name) :
    ∀ (names : List Node) (st : BState) (result : Name → Option JSVal),
      (st.sing nm).started = true →
      (startSingletons b st names result).1.sing nm = st.sing nm ∧
      (∀ res, (startSingletons b st names result).2 = .ok res →
        (Node.name nm ∈ names → res nm = some (st.sing nm).inst) ∧
        (Node.name nm ∉ names → res nm = result nm)) := by
  intro names
  induction names with
  | nil =>
    intro st result hst
    refine ⟨rfl, ?_⟩
    intro res hres
    injection hres with h
    exact ⟨fun hm => absurd hm (by simp), fun _ => by rw [← h]⟩
  | cons x rest ih =>
    intro st result hst
    cases x with
    | root =>
      refine ⟨rfl, ?_⟩
      intro res hres
      cases hres
    | name s =>
      cases hl : lookupA b.singletons s with
      | none =>
        have hred : startSingletons b st (Node.name s :: rest) result =
            (st, .error typeErr) := by
          simp [startSingletons, hl]
        rw [hred]
        exact ⟨rfl, fun res hres => by cases hres⟩
      | some sdef =>
        by_cases hs : (st.sing s).started
        · have hred : startSingletons b st (Node.name s :: rest) result =
              startSingletons b st rest (updO result s (st.sing s).inst) := by
            simp [startSingletons, hl, hs]
          rw [hred]
          obtain ⟨ih1, ih2⟩ := ih st (updO result s (st.sing s).inst) hst
          refine ⟨ih1, ?_⟩
          intro res hres
          obtain ⟨ih2a, ih2b⟩ := ih2 res hres
          by_cases hsn : Node.name nm ∈ rest
          · exact ⟨fun _ => ih2a hsn, fun hn => absurd (by simp [hsn]) hn⟩
          · constructor
            · intro hmem
              rcases List.mem_cons.mp hmem with he | he
              · have hns : nm = s := by injection he
                subst hns
                rw [ih2b hsn]
                simp [updO]
              · exact absurd he hsn
            · intro hnmem
              rw [ih2b hsn]
              have hne : ¬ nm = s := fun he => hnmem (by simp [he])
              simp [updO, hne]
        · have hfl : (st.sing s).started = false := by simpa using hs
          have hsne : ¬ nm = s := by
            intro he
            rw [← he] at hfl
            rw [hst] at hfl
            cases hfl
          have hred : startSingletons b st (Node.name s :: rest) result =
              startSingletons b
                { st with sing := updF st.sing s ({ started := true, inst := sdef.start (sdef.singletons.foldl (fun res d => updO res d (st.sing d).inst) (fun _ => none)) }), log := st.log ++ [.startSing s] }
                rest
                (updO result s (sdef.start (sdef.singletons.foldl
                  (fun res d => updO res d (st.sing d).inst) (fun _ => none)))) := by
            simp [startSingletons, hl, hfl]
          rw [hred]
          have hsing : ({ st with sing := updF st.sing s ({ started := true, inst := sdef.start (sdef.singletons.foldl (fun res d => updO res d (st.sing d).inst) (fun _ => none)) }), log := st.log ++ [.startSing s] } : BState).sing nm = st.sing nm := by
            simp [updF, hsne]
          obtain ⟨ih1, ih2⟩ := ih
            { st with sing := updF st.sing s ({ started := true, inst := sdef.start (sdef.singletons.foldl (fun res d => updO res d (st.sing d).inst) (fun _ => none)) }), log := st.log ++ [.startSing s] }
            (updO result s (sdef.start (sdef.singletons.foldl
              (fun res d => updO res d (st.sing d).inst) (fun _ => none))))
            (by rw [hsing]; exact hst)
          rw [hsing] at ih1
          refine ⟨ih1, ?_⟩
          intro res hres
          obtain ⟨ih2a, ih2b⟩ := ih2 res hres
          rw [hsing] at ih2a
          constructor
          · intro hmem
            rcases List.mem_cons.mp hmem with he | he
            · exact absurd (by injection he) hsne
            · exact ih2a he
          · intro hnmem
            have hnr : Node.name nm ∉ rest := fun hh => hnmem (by simp [hh])
            rw [ih2b hnr]
            simp [updO, hsne]

/-- C4: over any sequence of startService / stopService operations from the
initial state, a singleton's start routine runs at most once between a start
and the matching stop (the event log stays legal for every name); and an
already-started singleton is never restarted by startSingletons — the call
leaves its registry entry untouched and every requester, from whatever
service, receives the same memoized process-wide instance. -/
theorem c4_start_at_most_once (b : Broker) :
    (∀ (ops : List Op) (nm : Name),
      logOk nm (runOps b ops initState).log false = true) ∧
    (∀ (st : BState) (names : List Node) (result : Name → Option JSVal)
        (nm : Name),
      (st.sing nm).started = true →
      (startSingletons b st names result).1.sing nm = st.sing nm ∧
      (∀ res, (startSingletons b st names result).2 = .ok res →
        (Node.name nm ∈ names → res nm = some (st.sing nm).inst) ∧
        (Node.name nm ∉ names → res nm = result nm))) := by
  constructor
  · intro ops nm
    exact (invC4_runOps b ops initState invC4_init nm).1
  · intro st names result nm hst
    exact startSingletons_started_spec b nm names st result hst

/-- Witness for C4: in bSvc after starting A, s1 is started; a further
startSingletons call for s1 leaves the entry untouched and returns the
memoized instance 7, and the at-most-once log property holds for the
trace that starts A and B and stops both. -/
theorem c4_start_at_most_once_witness :
    (((startService bSvc initState "A").1.sing "s1").started = true ∧
      logOk "s1" (runOps bSvc
        [Op.start "A", Op.start "B", Op.stop "A", Op.stop "B"] initState).log
        false = true ∧
      (startSingletons bSvc (startService bSvc initState "A").1
        [Node.name "s1"] (fun _ => none)).1.sing "s1" =
        (startService bSvc initState "A").1.sing "s1") ∧
    (∀ res, (startSingletons bSvc (startService bSvc initState "A").1
        [Node.name "s1"] (fun _ => none)).2 = .ok res →
      (Node.name "s1" ∈ [Node.name "s1"] →
        res "s1" = some ((startService bSvc initState "A").1.sing "s1").inst) ∧
      (Node.name "s1" ∉ [Node.name "s1"] → res "s1" = none)) :=
  ⟨⟨by decide,
    (c4_start_at_most_once bSvc).1
      [Op.start "A", Op.start "B", Op.stop "A", Op.stop "B"] "s1",
    ((c4_start_at_most_once bSvc).2 (startService bSvc initState "A").1
      [Node.name "s1"] (fun _ => none) "s1" (by decide)).1⟩,
    ((c4_start_at_most_once bSvc).2 (startService bSvc initState "A").1
      [Node.name "s1"] (fun _ => none) "s1" (by decide)).2⟩

/-- C5: on a registry whose service svc requires the self-looping singleton A,
startService fails synchronously during resolution with no instantiation side
effect — the event log stays empty and no singleton is started — but the
claim's final clause fails: isRunning was set before resolution and is never
rolled back on the error path, so the broker reports the service as running
and a retry returns ok immediately without starting anything. -/
theorem c5_resolution_failure_state :
    (startService bBug initState "svc").2 =
      .error "Found singletons circular dependency: A -> A -> A" ∧
    (startService bBug initState "svc").1.log = [] ∧
    ((startService bBug initState "svc").1.sing "A").started = false ∧
    isServiceRunning bBug (startService bBug initState "svc").1 "svc" = .ok true ∧
    (startService bBug (startService bBug initState "svc").1 "svc").2 = .ok () ∧
    (startService bBug (startService bBug initState "svc").1 "svc").1.log = [] := by
  decide

/-! C6: what the constructor's reference validation does and does not cover. -/

theorem checkList_ok (mk : Name → String) (known : Name → Bool) :
    ∀ l : List Name, checkList mk known l = .ok () ↔ ∀ s ∈ l, known s = true := by
  intro l
  induction l with
  | nil => simp [checkList]
  | cons s rest ih =>
    by_cases h : known s = true
    · simp [checkList, h, ih]
    · simp [checkList, h]

theorem checkServices_ok (b : Broker) :
    ∀ l : List (Name × ServiceDef),
      checkServices b l = .ok () ↔
        ∀ p ∈ l, (∀ s ∈ p.2.singletons, b.knownSingleton s = true) ∧
          ∀ a ∈ p.2.actions, (a.startsWith "#" || b.knownAction a) = true := by
  intro l
  induction l with
  | nil => simp [checkServices]
  | cons p rest ih =>
    obtain ⟨nm, svc⟩ := p
    simp only [checkServices]
    cases h1 : checkList
        (fun s => "Service \"" ++ nm ++ "\" requires unknown singleton \"" ++ s ++ "\"")
        b.knownSingleton svc.singletons with
    | error e =>
      simp only [h1]
      constructor
      · intro hc
        exact absurd hc (by simp)
      · intro hall
        exfalso
        have hs := (hall (nm, svc) (List.mem_cons_self _ _)).1
        have hok := (checkList_ok
          (fun s => "Service \"" ++ nm ++ "\" requires unknown singleton \"" ++ s ++ "\"")
          b.knownSingleton svc.singletons).mpr hs
        rw [h1] at hok
        exact absurd hok (by simp)
    | ok u =>
      cases u
      simp only [h1]
      cases h2 : checkList
          (fun a => "Service \"" ++ nm ++ "\" requires unknown action \"" ++ a ++ "\"")
          (fun a => a.startsWith "#" || b.knownAction a) svc.actions with
      | error e =>
        simp only [h2]
        constructor
        · intro hc
          exact absurd hc (by simp)
        · intro hall
          exfalso
          have hs := (hall (nm, svc) (List.mem_cons_self _ _)).2
          have hok := (checkList_ok
            (fun a => "Service \"" ++ nm ++ "\" requires unknown action \"" ++ a ++ "\"")
            (fun a => a.startsWith "#" || b.knownAction a) svc.actions).mpr hs
          rw [h2] at hok
          exact absurd hok (by simp)
      | ok v =>
        cases v
        simp only [h2]
        rw [ih]
        constructor
        · intro hrest q hq
          rcases List.mem_cons.mp hq with hq | hq
          · subst hq
            exact ⟨(checkList_ok _ _ _).mp h1, (checkList_ok _ _ _).mp h2⟩
          · exact hrest q hq
        · intro hall q hq
          exact hall q (List.mem_cons_of_mem _ hq)

theorem checkSingletons_ok (b : Broker) :
    ∀ l : List (Name × SingletonDef),
      checkSingletons b l = .ok () ↔
        ∀ p ∈ l, ∀ s ∈ p.2.singletons, b.knownSingleton s = true := by
  intro l
  induction l with
  | nil => simp [checkSingletons]
  | cons p rest ih =>
    obtain ⟨nm, sg⟩ := p
    simp only [checkSingletons]
    cases h1 : checkList
        (fun d => "Singleton \"" ++ nm ++ "\" requires unknown singleton \"" ++ d ++ "\"")
        b.knownSingleton sg.singletons with
    | error e =>
      simp only [h1]
      constructor
      · intro hc
        exact absurd hc (by simp)
      · intro hall
        exfalso
        have hs := hall (nm, sg) (List.mem_cons_self _ _)
        have hok := (checkList_ok
          (fun d => "Singleton \"" ++ nm ++ "\" requires unknown singleton \"" ++ d ++ "\"")
          b.knownSingleton sg.singletons).mpr hs
        rw [h1] at hok
        exact absurd hok (by simp)
    | ok u =>
      cases u
      simp only [h1]
      rw [ih]
      constructor
      · intro hrest q hq
        rcases List.mem_cons.mp hq with hq | hq
        · subst hq
          exact (checkList_ok _ _ _).mp h1
        · exact hrest q hq
      · intro hall q hq
        exact hall q (List.mem_cons_of_mem _ hq)

theorem checkActions_ok (b : Broker) :
    ∀ l : List (Name × ActionDef),
      checkActions b l = .ok () ↔
        ∀ p ∈ l, ∀ s ∈ p.2.singletons, b.knownSingleton s = true := by
  intro l
  induction l with
  | nil => simp [checkActions]
  | cons p rest ih =>
    obtain ⟨nm, a⟩ := p
    simp only [checkActions]
    cases h1 : checkList
        (fun d => "Action \"" ++ nm ++ "\" requires unknown singleton \"" ++ d ++ "\"")
        b.knownSingleton a.singletons with
    | error e =>
      simp only [h1]
      constructor
      · intro hc
        exact absurd hc (by simp)
      · intro hall
        exfalso
        have hs := hall (nm, a) (List.mem_cons_self _ _)
        have hok := (checkList_ok
          (fun d => "Action \"" ++ nm ++ "\" requires unknown singleton \"" ++ d ++ "\"")
          b.knownSingleton a.singletons).mpr hs
        rw [h1] at hok
        exact absurd hok (by simp)
    | ok u =>
      cases u
      simp only [h1]
      rw [ih]
      constructor
      · intro hrest q hq
        rcases List.mem_cons.mp hq with hq | hq
        · subst hq
          exact (checkList_ok _ _ _).mp h1
        · exact hrest q hq
      · intro hall q hq
        exact hall q (List.mem_cons_of_mem _ hq)

/-- C6: the constructor's validation accepts a registry exactly when every
singleton required by a service, every non-local (not '#'-prefixed) action
required by a service, every singleton required by a singleton, and every
singleton required by a registered action exists in the corresponding
registry.  It checks nothing else: in particular the actions required by
actions and any plugin references are never examined. -/
theorem c6_constructor_validation (b : Broker) :
    Broker.constructorCheck b = .ok () ↔
      ((∀ p ∈ b.services, (∀ s ∈ p.2.singletons, b.knownSingleton s = true) ∧
          ∀ a ∈ p.2.actions, (a.startsWith "#" || b.knownAction a) = true) ∧
        (∀ p ∈ b.singletons, ∀ s ∈ p.2.singletons, b.knownSingleton s = true) ∧
        (∀ p ∈ b.allActions, ∀ s ∈ p.2.singletons, b.knownSingleton s = true)) := by
  rw [Broker.constructorCheck]
  cases h1 : checkServices b b.services with
  | error e =>
    simp only [h1]
    constructor
    · intro hc
      exact absurd hc (by simp)
    · intro hall
      exfalso
      have hok := (checkServices_ok b b.services).mpr hall.1
      rw [h1] at hok
      exact absurd hok (by simp)
  | ok u =>
    cases u
    simp only [h1]
    cases h2 : checkSingletons b b.singletons with
    | error e =>
      simp only [h2]
      constructor
      · intro hc
        exact absurd hc (by simp)
      · intro hall
        exfalso
        have hok := (checkSingletons_ok b b.singletons).mpr hall.2.1
        rw [h2] at hok
        exact absurd hok (by simp)
    | ok v =>
      cases v
      simp only [h2]
      rw [checkActions_ok]
      constructor
      · intro hact
        exact ⟨(checkServices_ok b b.services).mp h1,
          (checkSingletons_ok b b.singletons).mp h2, hact⟩
      · intro hall
        exact hall.2.2

/-- Counterexample to C6 as stated: action a1 requires the action ghost,
ghost is registered nowhere, yet the constructor validation passes — an
action's required actions are never checked (nor are plugin references). -/
theorem c6_constructor_validation_counterexample :
    Broker.constructorCheck bC6 = .ok () ∧
    (lookupA bC6.allActions "a1").elim [] (fun a => a.actions) = ["ghost"] ∧
    bC6.knownAction "ghost" = false := by
  decide

/-! C7: the per-action singleton-presence pre-check of sortActions. -/

theorem checkIncluded_split (b : Broker) (singletons : List Node) :
    ∀ (pre : List Name) (a0 : Name) (post : List Name),
      (∀ a ∈ pre, difference (b.actionSingletonDeps a) singletons = []) →
      difference (b.actionSingletonDeps a0) singletons ≠ [] →
      checkIncluded b singletons (pre ++ a0 :: post) =
        .error ("Action \"" ++ a0 ++ "\" requires not included singleton(s): \""
          ++ joinQuoted (difference (b.actionSingletonDeps a0) singletons)
          ++ "\". Please add them to service definition") := by
  intro pre
  induction pre with
  | nil =>
    intro a0 post hpre ha0
    have hne : (difference (b.actionSingletonDeps a0) singletons).isEmpty = false := by
      cases hd : difference (b.actionSingletonDeps a0) singletons with
      | nil => exact absurd hd ha0
      | cons x xs => rfl
    simp [checkIncluded, hne]
  | cons a pre ih =>
    intro a0 post hpre ha0
    have ha : difference (b.actionSingletonDeps a) singletons = [] :=
      hpre a (by simp)
    have hae : (difference (b.actionSingletonDeps a) singletons).isEmpty = true := by
      rw [ha]
      rfl
    simp only [List.cons_append, checkIncluded, hae, if_true]
    exact ih a0 post (fun x hx => hpre x (by simp [hx])) ha0

/-- C7: when the depth-first accumulation of the required actions' transitive
closure succeeds and some action of that closure declares a required singleton
absent from the singleton list resolved for the owning service, sortActions
fails before the topological sort with an error naming the first such action
and exactly its missing singletons. -/
theorem c7_action_missing_singleton (b : Broker) (required : List Name)
    (singletons : List Node) (pre post : List Name) (a0 : Name)
    (hrun : runGetDeps b.actionDeps (b.allActions.length + 1) required
      (dedupInit required) = .ok (pre ++ a0 :: post))
    (hpre : ∀ a ∈ pre, difference (b.actionSingletonDeps a) singletons = [])
    (ha0 : difference (b.actionSingletonDeps a0) singletons ≠ []) :
    b.sortActions required singletons =
      .error ("Action \"" ++ a0 ++ "\" requires not included singleton(s): \""
        ++ joinQuoted (difference (b.actionSingletonDeps a0) singletons)
        ++ "\". Please add them to service definition") := by
  simp only [Broker.sortActions, hrun]
  rw [checkIncluded_split b singletons pre a0 post hpre ha0]

/-- Witness for C7: on bC7 the closure of doIt is [doIt], doIt requires the
unresolved singleton s9, and sortActions reports exactly that. -/
theorem c7_action_missing_singleton_witness :
    runGetDeps bC7.actionDeps (bC7.allActions.length + 1) ["doIt"]
      (dedupInit ["doIt"]) = .ok ["doIt"] ∧
    difference (bC7.actionSingletonDeps "doIt") [] ≠ [] ∧
    bC7.sortActions ["doIt"] [] =
      .error "Action \"doIt\" requires not included singleton(s): \"s9\". Please add them to service definition" := by
  refine ⟨by decide, by decide, ?_⟩
  have h := c7_action_missing_singleton bC7 ["doIt"] [] [] [] "doIt"
    (by decide) (by simp) (by decide)
  rw [h]
  decide

/-! C8 and C10: the compose-must-return-a-function contract of startActions
and the cache-before-check consequence. -/

/-- C8: when startActions reaches an action whose cache is falsy and the
compose routine's return value is not a function, the call fails with the
error naming the offending action, after the compose invocation was logged. -/
theorem c8_compose_not_function (b : Broker) (st : BState) (nm : Name)
    (rest : List Node) (result : Name → Option JSVal) (adef : ActionDef)
    (hl : lookupA b.allActions nm = some adef)
    (hcold : truthy (st.act nm).initializedFn = false)
    (hnf : isFunctionV (adef.fn
      (adef.actions.foldl (fun res a => updO res a (st.act a).initializedFn)
        (fun _ => none))
      (adef.singletons.foldl (fun res s => updO res s (st.sing s).inst)
        (fun _ => none))) = false) :
    (startActions b st (Node.name nm :: rest) result).2 =
      .error ("Action \"" ++ nm ++ "\" did not return function") ∧
    (startActions b st (Node.name nm :: rest) result).1.log =
      st.log ++ [Event.composeAct nm] := by
  simp [startActions, hl, hcold, hnf]

/-- Witness for C8: the action bad of bC8 composes to 5, not a function, and
startActions reports exactly that after running the compose routine. -/
theorem c8_compose_not_function_witness :
    truthy ((initState.act "bad").initializedFn) = false ∧
    (startActions bC8 initState [Node.name "bad"] (fun _ => none)).2 =
      .error "Action \"bad\" did not return function" ∧
    (startActions bC8 initState [Node.name "bad"] (fun _ => none)).1.log =
      [Event.composeAct "bad"] := by
  have h := c8_compose_not_function bC8 initState "bad" [] (fun _ => none)
    { fn := fun _ _ => .num 5 } rfl (by decide) (by decide)
  refine ⟨by decide, ?_, ?_⟩
  · rw [h.1]
    rfl
  · rw [h.2]
    rfl

/-- C10: a truthy non-function compose result is written to the registry
entry's cache before the contract check throws, and any later startActions
pass over the same action sees the truthy cache, skips compose and check, and
records the non-callable value in its result without any error. -/
theorem c10_truthy_nonfunction_cached (b : Broker) (st : BState) (nm : Name)
    (rest rest2 : List Node) (result result2 : Name → Option JSVal)
    (adef : ActionDef)
    (hl : lookupA b.allActions nm = some adef)
    (hcold : truthy (st.act nm).initializedFn = false)
    (htr : truthy (adef.fn
      (adef.actions.foldl (fun res a => updO res a (st.act a).initializedFn)
        (fun _ => none))
      (adef.singletons.foldl (fun res s => updO res s (st.sing s).inst)
        (fun _ => none))) = true)
    (hnf : isFunctionV (adef.fn
      (adef.actions.foldl (fun res a => updO res a (st.act a).initializedFn)
        (fun _ => none))
      (adef.singletons.foldl (fun res s => updO res s (st.sing s).inst)
        (fun _ => none))) = false) :
    ((startActions b st (Node.name nm :: rest) result).1.act nm).initializedFn =
      adef.fn
        (adef.actions.foldl (fun res a => updO res a (st.act a).initializedFn)
          (fun _ => none))
        (adef.singletons.foldl (fun res s => updO res s (st.sing s).inst)
          (fun _ => none)) ∧
    (startActions b st (Node.name nm :: rest) result).2 =
      .error ("Action \"" ++ nm ++ "\" did not return function") ∧
    (∀ st2 : BState,
      (st2.act nm).initializedFn =
        adef.fn
          (adef.actions.foldl (fun res a => updO res a (st.act a).initializedFn)
            (fun _ => none))
          (adef.singletons.foldl (fun res s => updO res s (st.sing s).inst)
            (fun _ => none)) →
      startActions b st2 (Node.name nm :: rest2) result2 =
        startActions b st2 rest2 (updO result2 (realName nm)
          (st2.act nm).initializedFn)) := by
  refine ⟨?_, ?_, ?_⟩
  · simp [startActions, hl, hcold, hnf, updF]
  · simp [startActions, hl, hcold, hnf]
  · intro st2 h2
    have htr2 : truthy (st2.act nm).initializedFn = true := by
      rw [h2]
      exact htr
    simp [startActions, hl, htr2]

/-- Witness for C10: after the failing first call on bC8 the cache holds 5; a
second startActions pass over bad returns ok with 5 recorded and the state
unchanged. -/
theorem c10_truthy_nonfunction_cached_witness :
    truthy ((initState.act "bad").initializedFn) = false ∧
    ((startActions bC8 initState [Node.name "bad"]
        (fun _ => none)).1.act "bad").initializedFn = JSVal.num 5 ∧
    (startActions bC8 (startActions bC8 initState [Node.name "bad"]
        (fun _ => none)).1 [Node.name "bad"] (fun _ => none) =
      startActions bC8 (startActions bC8 initState [Node.name "bad"]
        (fun _ => none)).1 [] (updO (fun _ => none) (realName "bad")
          (((startActions bC8 initState [Node.name "bad"]
            (fun _ => none)).1.act "bad").initializedFn))) ∧
    (startActions bC8 (startActions bC8 initState [Node.name "bad"]
        (fun _ => none)).1 [Node.name "bad"] (fun _ => none)).2 =
      .ok (updO (fun _ => none) (realName "bad") (JSVal.num 5)) ∧
    (startActions bC8 (startActions bC8 initState [Node.name "bad"]
        (fun _ => none)).1 [Node.name "bad"] (fun _ => none)).1.log =
      [Event.composeAct "bad"] := by
  have h := c10_truthy_nonfunction_cached bC8 initState "bad" [] [] (fun _ => none)
    (fun _ => none) { fn := fun _ _ => .num 5 } rfl (by decide) (by decide) (by decide)
  have h3 := h.2.2 (startActions bC8 initState [Node.name "bad"] (fun _ => none)).1 h.1
  refine ⟨by decide, ?_, h3, ?_, ?_⟩
  · rw [h.1]
  · rw [h3, h.1]
    rfl
  · rw [h3]
    rfl

end Agata
